import Mathlib

/-!
Verification of the ucan.xyz documentation-processing pipeline.

Shallow embedding of the content-processing scripts:
  - scripts/process-docs.ts  (processMarkdown, processSpecs, clearDocsDirectory, ...)
  - scripts/link-processing.js  (URL_MAPPINGS, standardizeUCANLinks, checkUCANLinkIssues)
  - the content-format review tool (processFile, its four fix passes)
  - src/config/content-processing.config.ts  (options)

Strings are modelled as `List Char`.  Each JavaScript regex transform is
translated into an explicit scanner that follows the regex engine's
behaviour (leftmost match, greedy / lazy quantifiers with backtracking,
`g` continuation after the match end).
-/

namespace UCANDocs

/-- Strings are modelled as lists of characters. -/
abbrev Str := List Char

/-- JavaScript regex `\s` (the ASCII part, which is all the inputs use):
space, tab, newline, carriage return, vertical tab, form feed. -/
def isWsChar (c : Char) : Bool :=
  c = ' ' || c = '\t' || c = '\n' || c = '\r' || c = '\x0b' || c = '\x0c'

/-- JavaScript regex `\w`: ASCII letters, digits and underscore. -/
def isWordChar (c : Char) : Bool :=
  c.isAlpha || c.isDigit || c = '_'

/-- Word-character test for an optional character (`none` = string edge,
which never counts as a word character). -/
def isWordOpt : Option Char → Bool
  | some c => isWordChar c
  | none => false

/-- JavaScript `\b`: a word boundary holds between two (optional)
characters exactly when one side is a word character and the other not. -/
def isBoundary (prev next : Option Char) : Bool :=
  isWordOpt prev != isWordOpt next

/-- The backtick character (inline-code delimiter). -/
def backtick : Char := Char.ofNat 96

/-- `containsSub s pat`: `pat` occurs as a contiguous substring of `s`
(the semantics of JavaScript `String.includes`). -/
def containsSub (s pat : Str) : Bool :=
  match s with
  | [] => pat.isEmpty
  | _ :: r => pat.isPrefixOf s || containsSub r pat

/-! ### Small list lemmas used by the termination arguments -/

theorem length_dropWhile_le (p : Char → Bool) :
    ∀ l : Str, (l.dropWhile p).length ≤ l.length := by
  intro l
  induction l with
  | nil => simp [List.dropWhile]
  | cons c r ih =>
    simp only [List.dropWhile]
    split
    · exact Nat.le_succ_of_le ih
    · simp

theorem isPrefixOf_exists {p s : Str} (h : p.isPrefixOf s = true) :
    ∃ t, s = p ++ t := by
  induction p generalizing s with
  | nil => exact ⟨s, rfl⟩
  | cons a p ih =>
    cases s with
    | nil => simp [List.isPrefixOf] at h
    | cons b s =>
      simp only [List.isPrefixOf, Bool.and_eq_true, beq_iff_eq] at h
      obtain ⟨t, ht⟩ := ih h.2
      exact ⟨t, by simp [h.1, ht]⟩

theorem isPrefixOf_length_le {p s : Str} (h : p.isPrefixOf s = true) :
    p.length ≤ s.length := by
  obtain ⟨t, rfl⟩ := isPrefixOf_exists h
  simp

theorem dropWhile_cons_lt {p : Char → Bool} {s r : Str} {d : Char}
    (h : s.dropWhile p = d :: r) : r.length < s.length := by
  have h1 := length_dropWhile_le p s
  rw [h] at h1
  simp only [List.length_cons] at h1
  omega

theorem isPrefixOf_append (p t : Str) : p.isPrefixOf (p ++ t) = true := by
  induction p with
  | nil => simp [List.isPrefixOf]
  | cons a p ih => simpa [List.isPrefixOf] using ih

/-! ## Generic global-replace driver

`gsub tryAt` mirrors `String.replace(regex, ...)` with the `g` flag: the
engine attempts a match at each position from left to right; on a match
it emits the replacement and resumes immediately after the match end; on
a failure it emits the current character and advances one position.
`tryAt` receives the remaining input and returns the replacement text
together with the rest of the input after the match. -/

def gsubF (tryAt : Str → Option (Str × Str)) : Nat → Str → Str
  | 0, s => s
  | _ + 1, [] => []
  | fuel + 1, c :: cs =>
    match tryAt (c :: cs) with
    | some (o, r) => o ++ gsubF tryAt fuel r
    | none => c :: gsubF tryAt fuel cs

/-- The driver itself; the length of the input is enough fuel because
every step strictly shrinks the rest of the input (`hlt`). -/
def gsub (tryAt : Str → Option (Str × Str))
    (hlt : ∀ s o r, tryAt s = some (o, r) → r.length < s.length) (s : Str) : Str :=
  gsubF tryAt s.length s

theorem gsubF_invar (tryAt : Str → Option (Str × Str))
    (hlt : ∀ s o r, tryAt s = some (o, r) → r.length < s.length) :
    ∀ f s, s.length ≤ f → gsubF tryAt f s = gsubF tryAt s.length s := by
  intro f
  induction f using Nat.strong_induction_on with
  | _ f ih =>
    intro s hf
    match f, s with
    | 0, s =>
      have : s.length = 0 := Nat.le_zero.mp hf
      rw [this]
    | f + 1, [] => rfl
    | f + 1, c :: cs =>
      simp only [gsubF, List.length_cons]
      cases h : tryAt (c :: cs) with
      | some p =>
        obtain ⟨o, r⟩ := p
        have hr := hlt _ _ _ h
        simp only [List.length_cons] at hf hr
        dsimp only
        rw [ih f (Nat.lt_succ_self f) r (by omega),
          ih cs.length (by omega) r (by omega)]
      | none =>
        simp only [List.length_cons] at hf
        dsimp only
        rw [ih f (Nat.lt_succ_self f) cs (by omega)]

/-- The one-step unfolding of `gsub` (its recursion equation). -/
theorem gsub_cons (tryAt : Str → Option (Str × Str))
    (hlt : ∀ s o r, tryAt s = some (o, r) → r.length < s.length) (c : Char) (cs : Str) :
    gsub tryAt hlt (c :: cs) =
      (match tryAt (c :: cs) with
       | some (o, r) => o ++ gsub tryAt hlt r
       | none => c :: gsub tryAt hlt cs) := by
  show gsubF tryAt (c :: cs).length (c :: cs) = _
  simp only [List.length_cons, gsubF]
  cases h : tryAt (c :: cs) with
  | some p =>
    obtain ⟨o, r⟩ := p
    have hr := hlt _ _ _ h
    simp only [List.length_cons] at hr
    dsimp only
    rw [gsubF_invar tryAt hlt cs.length r (by omega)]
    rfl
  | none => rfl

theorem gsub_nil (tryAt : Str → Option (Str × Str))
    (hlt : ∀ s o r, tryAt s = some (o, r) → r.length < s.length) :
    gsub tryAt hlt [] = [] := rfl

/-! ## Lazy-quantifier scanners

`lazyTo delim s` implements the regex fragment `.*?DELIM` applied at the
start of `s`: it consumes the minimal run of non-newline characters
followed by the literal `delim`, returning the consumed run (the lazy
group's capture) and the rest after the delimiter.

`lazyToCont delim cont s` implements `.*?DELIM REST` where `REST` is
parsed by the continuation `cont`: at each position the engine first
tries the delimiter and, if the rest of the pattern succeeds there, the
match is complete; otherwise the lazy group grows by one (non-newline)
character, which is exactly the regex engine's backtracking order. -/

def lazyTo (delim : Str) : Str → Option (Str × Str)
  | [] => none
  | c :: r =>
    if delim.isPrefixOf (c :: r) then some ([], (c :: r).drop delim.length)
    else if c = '\n' then none
    else (lazyTo delim r).map (fun p => (c :: p.1, p.2))

def lazyToCont (delim : Str) (cont : Str → Option Str) : Str → Option Str
  | [] => none
  | c :: r =>
    match (if delim.isPrefixOf (c :: r) then cont ((c :: r).drop delim.length) else none) with
    | some out => some out
    | none => if c = '\n' then none else lazyToCont delim cont r

theorem lazyTo_length {delim s a r : Str} (hd : delim ≠ [])
    (h : lazyTo delim s = some (a, r)) : r.length < s.length := by
  induction s generalizing a with
  | nil => simp [lazyTo] at h
  | cons c cs ih =>
    simp only [lazyTo] at h
    split at h
    case isTrue hpre =>
      simp only [Option.some.injEq, Prod.mk.injEq] at h
      have hlen : 1 ≤ delim.length := by
        cases delim with
        | nil => exact absurd rfl hd
        | cons x xs => simp
      rw [← h.2]
      simp only [List.length_drop, List.length_cons]
      omega
    case isFalse =>
      split at h
      · simp at h
      · cases h2 : lazyTo delim cs with
        | none => rw [h2] at h; simp at h
        | some p =>
          obtain ⟨p1, p2⟩ := p
          rw [h2] at h
          simp only [Option.map_some', Option.some.injEq, Prod.mk.injEq] at h
          have hr : lazyTo delim cs = some (p1, r) := by rw [h2, h.2]
          have := ih hr
          simp only [List.length_cons]
          omega

theorem lazyToCont_length {delim : Str} {cont : Str → Option Str}
    (hd : delim ≠ []) (hc : ∀ t out, cont t = some out → out.length ≤ t.length) :
    ∀ {s out : Str}, lazyToCont delim cont s = some out → out.length < s.length := by
  intro s
  induction s with
  | nil => intro out h; simp [lazyToCont] at h
  | cons c cs ih =>
    intro out h
    simp only [lazyToCont] at h
    split at h
    case h_1 o heq =>
      split at heq
      case isTrue hpre =>
        have h1 := hc _ _ heq
        have hlen : 1 ≤ delim.length := by
          cases delim with
          | nil => exact absurd rfl hd
          | cons x xs => simp
        have h2 : delim.length ≤ cs.length + 1 := by
          simpa using isPrefixOf_length_le hpre
        simp only [Option.some.injEq] at h
        rw [← h]
        simp only [List.length_drop, List.length_cons] at h1 ⊢
        omega
      case isFalse => simp at heq
    case h_2 =>
      split at h
      · simp at h
      · have := ih h
        simp only [List.length_cons]
        omega

/-! ## sanitizeText (process-docs.ts lines 20-31)

Eight sequential global regex replacements followed by `trim`. -/

/-- Parser for the tail of a `\[([^\]]+)\]\([^)]+\)` match, entered just
after the opening `[`.  `[^\]]+` and `[^)]+` are greedy runs over
character classes, so the scan is deterministic: consume up to the first
`]`, require `](`, consume up to the first `)`, require `)`.  Returns
the captured link text (the `$1` replacement) and the rest after `)`. -/
def tryLinkStrip (s : Str) : Option (Str × Str) :=
  match s.dropWhile (· ≠ ']') with
  | ']' :: '(' :: r2 =>
    if (s.takeWhile (· ≠ ']')).isEmpty then none
    else
      match r2.dropWhile (· ≠ ')') with
      | ')' :: r3 =>
        if (r2.takeWhile (· ≠ ')')).isEmpty then none
        else some (s.takeWhile (· ≠ ']'), r3)
      | _ => none
  | _ => none

theorem tryLinkStrip_length {s o r : Str} (h : tryLinkStrip s = some (o, r)) :
    r.length < s.length := by
  unfold tryLinkStrip at h
  have h1 : (s.dropWhile (· ≠ ']')).length ≤ s.length := length_dropWhile_le _ s
  split at h
  case h_1 r2 heq =>
    have h2 : r2.length + 2 ≤ s.length := by rw [heq] at h1; simpa using h1
    split at h
    · simp at h
    · have h3 : (r2.dropWhile (· ≠ ')')).length ≤ r2.length := length_dropWhile_le _ r2
      split at h
      case h_1 r3 heq2 =>
        have h4 : r3.length + 1 ≤ r2.length := by rw [heq2] at h3; simpa using h3
        split at h
        · simp at h
        · simp only [Option.some.injEq, Prod.mk.injEq] at h
          rw [← h.2]
          omega
      case h_2 => simp at h
  case h_2 => simp at h

/-- Match attempt for `\[([^\]]+)\]\([^)]+\)` at the current position. -/
def linkStripAt : Str → Option (Str × Str)
  | [] => none
  | c :: s0 => if c = '[' then tryLinkStrip s0 else none

theorem linkStripAt_length : ∀ s o r, linkStripAt s = some (o, r) →
    r.length < s.length := by
  intro s o r h
  match s with
  | [] => simp [linkStripAt] at h
  | c :: s0 =>
    simp only [linkStripAt] at h
    split at h
    · have := tryLinkStrip_length h
      simp only [List.length_cons]
      omega
    · simp at h

/-- `.replace(/\[([^\]]+)\]\([^)]+\)/g, '$1')`: remove markdown links but
keep the link text. -/
def stripLinks : Str → Str := gsub linkStripAt linkStripAt_length

/-- Parser for an image-link match `\[\!\[.*?\]\(.*?\)\]\(.*?\)`, entered
just after the literal `[![`.  Returns the rest after the match. -/
def tryImageLink : Str → Option Str :=
  lazyToCont [']', '('] (lazyToCont [')', ']', '('] (lazyToCont [')'] some))

theorem tryImageLink_length {s out : Str} (h : tryImageLink s = some out) :
    out.length < s.length := by
  have hinner : ∀ t o : Str, lazyToCont [')'] some t = some o → o.length ≤ t.length := by
    intro t o ho
    exact Nat.le_of_lt (lazyToCont_length (by simp)
      (by intro a b hb; simp only [Option.some.injEq] at hb; subst hb; exact Nat.le_refl _) ho)
  have hmid : ∀ t o : Str, lazyToCont [')', ']', '('] (lazyToCont [')'] some) t = some o →
      o.length ≤ t.length := by
    intro t o ho
    exact Nat.le_of_lt (lazyToCont_length (by simp) hinner ho)
  exact lazyToCont_length (by simp) hmid h

/-- Match attempt for image links at the current position (replacement
is the empty string). -/
def imageLinkAt : Str → Option (Str × Str)
  | c1 :: c2 :: c3 :: s0 =>
    if c1 = '[' ∧ c2 = '!' ∧ c3 = '[' then (tryImageLink s0).map (fun r => ([], r))
    else none
  | _ => none

theorem imageLinkAt_length : ∀ s o r, imageLinkAt s = some (o, r) →
    r.length < s.length := by
  intro s o r h
  match s with
  | [] => simp [imageLinkAt] at h
  | [c1] => simp [imageLinkAt] at h
  | [c1, c2] => simp [imageLinkAt] at h
  | c1 :: c2 :: c3 :: s0 =>
    simp only [imageLinkAt] at h
    split at h
    · cases h2 : tryImageLink s0 with
      | none => rw [h2] at h; simp at h
      | some rest =>
        rw [h2] at h
        simp only [Option.map_some', Option.some.injEq, Prod.mk.injEq] at h
        have := tryImageLink_length h2
        simp only [List.length_cons]
        rw [← h.2]
        omega
    · simp at h

/-- `.replace(/\[\!\[.*?\]\(.*?\)\]\(.*?\)/g, '')`: remove image links. -/
def stripImageLinks : Str → Str := gsub imageLinkAt imageLinkAt_length

/-- Parser for an image match `\!\[.*?\]\(.*?\)`, entered just after the
literal `![`. -/
def tryImage : Str → Option Str :=
  lazyToCont [']', '('] (lazyToCont [')'] some)

theorem tryImage_length {s out : Str} (h : tryImage s = some out) :
    out.length < s.length := by
  have hinner : ∀ t o : Str, lazyToCont [')'] some t = some o → o.length ≤ t.length := by
    intro t o ho
    exact Nat.le_of_lt (lazyToCont_length (by simp)
      (by intro a b hb; simp only [Option.some.injEq] at hb; subst hb; exact Nat.le_refl _) ho)
  exact lazyToCont_length (by simp) hinner h

/-- Match attempt for images at the current position. -/
def imageAt : Str → Option (Str × Str)
  | c1 :: c2 :: s0 =>
    if c1 = '!' ∧ c2 = '[' then (tryImage s0).map (fun r => ([], r))
    else none
  | _ => none

theorem imageAt_length : ∀ s o r, imageAt s = some (o, r) →
    r.length < s.length := by
  intro s o r h
  match s with
  | [] => simp [imageAt] at h
  | [c1] => simp [imageAt] at h
  | c1 :: c2 :: s0 =>
    simp only [imageAt] at h
    split at h
    · cases h2 : tryImage s0 with
      | none => rw [h2] at h; simp at h
      | some rest =>
        rw [h2] at h
        simp only [Option.map_some', Option.some.injEq, Prod.mk.injEq] at h
        have := tryImage_length h2
        simp only [List.length_cons]
        rw [← h.2]
        omega
    · simp at h

/-- `.replace(/\!\[.*?\]\(.*?\)/g, '')`: remove images. -/
def stripImages : Str → Str := gsub imageAt imageAt_length

/-- Match attempt for `\*\*(.*?)\*\*` (replacement `$1`). -/
def boldAt : Str → Option (Str × Str)
  | c1 :: c2 :: s0 =>
    if c1 = '*' ∧ c2 = '*' then lazyTo ['*', '*'] s0
    else none
  | _ => none

theorem boldAt_length : ∀ s o r, boldAt s = some (o, r) → r.length < s.length := by
  intro s o r h
  match s with
  | [] => simp [boldAt] at h
  | [c1] => simp [boldAt] at h
  | c1 :: c2 :: s0 =>
    simp only [boldAt] at h
    split at h
    · have := lazyTo_length (by simp) h
      simp only [List.length_cons]
      omega
    · simp at h

/-- `.replace(/\*\*(.*?)\*\*/g, '$1')`: remove bold markdown. -/
def stripBold : Str → Str := gsub boldAt boldAt_length

/-- Match attempt for a single-character-delimited lazy pattern
`D(.*?)D` starting at the current position (used for italic and inline
code; the replacement is the captured group). -/
def delimAt (d : Char) : Str → Option (Str × Str)
  | [] => none
  | c :: s0 => if c = d then lazyTo [d] s0 else none

theorem delimAt_length (d : Char) : ∀ s o r, delimAt d s = some (o, r) →
    r.length < s.length := by
  intro s o r h
  match s with
  | [] => simp [delimAt] at h
  | c :: s0 =>
    simp only [delimAt] at h
    split at h
    · have := lazyTo_length (by simp) h
      simp only [List.length_cons]
      omega
    · simp at h

/-- `.replace(/\*(.*?)\*/g, '$1')`: remove italic markdown. -/
def stripItalic : Str → Str := gsub (delimAt '*') (delimAt_length '*')

/-- The inline-code replacement (backtick-delimited, replacement `$1`). -/
def stripInlineCode : Str → Str := gsub (delimAt backtick) (delimAt_length backtick)

/-- Match attempt for `\<.*?\>` (replacement is the empty string). -/
def htmlTagAt : Str → Option (Str × Str)
  | [] => none
  | c :: s0 =>
    if c = '<' then (lazyTo ['>'] s0).map (fun p => ([], p.2))
    else none

theorem htmlTagAt_length : ∀ s o r, htmlTagAt s = some (o, r) →
    r.length < s.length := by
  intro s o r h
  match s with
  | [] => simp [htmlTagAt] at h
  | c :: s0 =>
    simp only [htmlTagAt] at h
    split at h
    · cases h2 : lazyTo ['>'] s0 with
      | none => rw [h2] at h; simp at h
      | some p =>
        rw [h2] at h
        simp only [Option.map_some', Option.some.injEq, Prod.mk.injEq] at h
        obtain ⟨p1, p2⟩ := p
        have := lazyTo_length (by simp) h2
        simp only [List.length_cons]
        simp only at h
        rw [← h.2]
        omega
    · simp at h

/-- `.replace(/\<.*?\>/g, '')`: remove HTML tags. -/
def stripHtmlTags : Str → Str := gsub htmlTagAt htmlTagAt_length

/-- Match attempt for `\s+` (replacement: one space). -/
def wsRunAt : Str → Option (Str × Str)
  | [] => none
  | c :: s0 =>
    if isWsChar c then some ([' '], s0.dropWhile isWsChar)
    else none

theorem wsRunAt_length : ∀ s o r, wsRunAt s = some (o, r) → r.length < s.length := by
  intro s o r h
  match s with
  | [] => simp [wsRunAt] at h
  | c :: s0 =>
    simp only [wsRunAt] at h
    split at h
    · simp only [Option.some.injEq, Prod.mk.injEq] at h
      have := length_dropWhile_le isWsChar s0
      simp only [List.length_cons]
      rw [← h.2]
      omega
    · simp at h

/-- `.replace(/\s+/g, ' ')`: normalize whitespace. -/
def collapseWs : Str → Str := gsub wsRunAt wsRunAt_length

/-- JavaScript `String.trim`: strip leading and trailing whitespace. -/
def jsTrim (s : Str) : Str :=
  ((s.dropWhile isWsChar).reverse.dropWhile isWsChar).reverse

/-- `sanitizeText` (process-docs.ts): strip markdown links, image links,
images, bold, italic, inline code and HTML tags, normalize whitespace,
then trim. -/
def sanitizeText (s : Str) : Str :=
  jsTrim (collapseWs (stripHtmlTags (stripInlineCode (stripItalic (stripBold
    (stripImages (stripImageLinks (stripLinks s))))))))

/-! ## Configuration (content-processing.config.ts, options) -/

/-- `options.removeTitleFromBody`. -/
def removeTitleFromBody : Bool := true

/-- `options.maxDescriptionLength`. -/
def maxDescriptionLength : Nat := 160

/-! ## Line scanning

A driver for multiline-anchored (`^...`) first-match regexes: attempt a
match at each line start, from top to bottom. -/

def scanLinesF {α : Type} (tryLine : Str → Option α) : Nat → Str → Option α
  | 0, _ => none
  | fuel + 1, s =>
    match tryLine s with
    | some v => some v
    | none =>
      match s.dropWhile (· ≠ '\n') with
      | [] => none
      | _ :: r => scanLinesF tryLine fuel r

def scanLines {α : Type} (tryLine : Str → Option α) (s : Str) : Option α :=
  scanLinesF tryLine (s.length + 1) s

theorem scanLinesF_invar {α : Type} (tryLine : Str → Option α) :
    ∀ f s, s.length + 1 ≤ f → scanLinesF tryLine f s = scanLinesF tryLine (s.length + 1) s := by
  intro f
  induction f using Nat.strong_induction_on with
  | _ f ih =>
    intro s hf
    match f with
    | 0 => omega
    | f + 1 =>
      simp only [scanLinesF]
      cases tryLine s with
      | some v => rfl
      | none =>
        cases h : s.dropWhile (· ≠ '\n') with
        | nil => rfl
        | cons d r =>
          have hr := dropWhile_cons_lt h
          dsimp only
          rw [ih f (Nat.lt_succ_self f) r (by omega),
            ih (s.length) (by omega) r (by omega)]

/-- The one-step unfolding of `scanLines`. -/
theorem scanLines_eq {α : Type} (tryLine : Str → Option α) (s : Str) :
    scanLines tryLine s =
      (match tryLine s with
       | some v => some v
       | none =>
         match s.dropWhile (· ≠ '\n') with
         | [] => none
         | _ :: r => scanLines tryLine r) := by
  show scanLinesF tryLine (s.length + 1) s = _
  simp only [scanLinesF]
  cases tryLine s with
  | some v => rfl
  | none =>
    cases h : s.dropWhile (· ≠ '\n') with
    | nil => rfl
    | cons d r =>
      have hr := dropWhile_cons_lt h
      dsimp only
      rw [scanLinesF_invar tryLine s.length r (by omega)]
      rfl

/-! ## Title and version extraction (process-docs.ts lines 102-146) -/

/-- `^# (.+)$` at a line start: a `# ` heading with a nonempty rest of
line; the capture is the rest of the line. -/
def h1At : Str → Option Str
  | c1 :: c2 :: c3 :: r =>
    if c1 = '#' ∧ c2 = ' ' ∧ c3 ≠ '\n' then some (c3 :: r.takeWhile (· ≠ '\n'))
    else none
  | _ => none

/-- `content.match(/^# (.+)$/m)`: the first h1 heading line. -/
def firstH1 (s : Str) : Option Str := scanLines h1At s

/-- Case-insensitive literal prefix test (for the `/i` regexes). -/
def ciPrefixOf : Str → Str → Bool
  | [], _ => true
  | _ :: _, [] => false
  | a :: p, b :: s => (a.toLower = b.toLower) && ciPrefixOf p s

/-- `\d` digit class. -/
def isDigitChar (c : Char) : Bool := c.isDigit

/-- The version-suffix class `[a-zA-Z0-9.-]`. -/
def isVerSufChar (c : Char) : Bool := c.isAlpha || c.isDigit || c = '.' || c = '-'

/-- The anchor class `[a-zA-Z0-9-]`. -/
def isAnchorChar (c : Char) : Bool := c.isAlpha || c.isDigit || c = '-'

/-- Greedy-with-backtracking search for `(?:-[a-zA-Z0-9.-]+)?` followed by
a continuation test: over the class run `run` (followed by `tl`), find
the longest nonempty prefix after which `cont lastChar rest` holds.
Preferring the deeper (longer) solution mirrors the greedy `+`. -/
def sufSearch (cont : Char → Str → Bool) : Str → Str → Option (Str × Str)
  | [], _ => none
  | c :: rs, tl =>
    match sufSearch cont rs tl with
    | some (p, r) => some (c :: p, r)
    | none => if cont c (rs ++ tl) then some ([c], rs ++ tl) else none

/-- `(?:-[a-zA-Z0-9.-]+)?CONT` after an already-parsed number part `pre`
(whose last character is `lastPre`, a digit).  If the suffix cannot be
matched so that the continuation holds, the optional group is dropped
and the continuation is tested directly (regex backtracking). -/
def tryNumSuffix (cont : Char → Str → Bool) (pre : Str) (lastPre : Char)
    (s : Str) : Option (Str × Str) :=
  match s with
  | '-' :: s2 =>
    let run := s2.takeWhile isVerSufChar
    let tl := s2.dropWhile isVerSufChar
    (match sufSearch cont run tl with
     | some (p, r) => some (pre ++ '-' :: p, r)
     | none => if cont lastPre s then some (pre, s) else none)
  | _ => if cont lastPre s then some (pre, s) else none

/-- The version-number core `\d+\.\d+(?:\.\d+)?(?:-[a-zA-Z0-9.-]+)?`
followed by a continuation test (`\b` for the title regex, `\s*$` for
the bare-pattern regex).  The `\d+` runs are deterministic (shortening a
greedy digit run leaves a digit as the next character, on which `\.`,
`-` and both continuations fail), so the only backtracking points are
the two optional groups, tried greedily. -/
def tryNumCore (cont : Char → Str → Bool) (s : Str) : Option (Str × Str) :=
  let d1 := s.takeWhile isDigitChar
  if d1.isEmpty then none else
  match s.dropWhile isDigitChar with
  | '.' :: s2 =>
    let d2 := s2.takeWhile isDigitChar
    if d2.isEmpty then none else
    let s3 := s2.dropWhile isDigitChar
    let base := d1 ++ '.' :: d2
    let last2 := d2.getLastD '0'
    (match s3 with
     | '.' :: s4 =>
       let d3 := s4.takeWhile isDigitChar
       if d3.isEmpty then tryNumSuffix cont base last2 s3
       else
         (match tryNumSuffix cont (base ++ '.' :: d3) (d3.getLastD '0')
             (s4.dropWhile isDigitChar) with
          | some res => some res
          | none => tryNumSuffix cont base last2 s3)
     | _ => tryNumSuffix cont base last2 s3)
  | _ => none

/-- The `\b` continuation used by the title-version regex: a word
boundary between the last matched character and the next one. -/
def contBoundary (last : Char) (rest : Str) : Bool :=
  isBoundary (some last) rest.head?

/-- The `\s*$` (multiline) continuation used by the bare-pattern regex:
the rest of the current line is whitespace (the whitespace run contains
a newline or reaches the end of the string). -/
def contLineEnd (_ : Char) (rest : Str) : Bool :=
  (rest.takeWhile isWsChar).contains '\n' || (rest.dropWhile isWsChar).isEmpty

/-- Match attempt for `\b(?:v|version\s+)?(\d+\.\d+(?:\.\d+)?(?:-[a-zA-Z0-9.-]+)?)\b`
(case-insensitive) at the current position, `prev` being the preceding
character.  The alternation is tried in order `v`, `version\s+`, empty
prefix; the `\b` before the prefix needs the first matched character (a
word character) to follow a non-word position. -/
def tvAt (prev : Option Char) (s : Str) : Option Str :=
  match s with
  | [] => none
  | c :: r =>
    if ¬ isWordOpt prev then
      (if c = 'v' ∨ c = 'V' then (tryNumCore contBoundary r).map (·.1) else none).orElse
      (fun _ =>
        (if ciPrefixOf ("version".data) s then
          let r7 := s.drop 7
          if (r7.takeWhile isWsChar).isEmpty then none
          else (tryNumCore contBoundary (r7.dropWhile isWsChar)).map (·.1)
        else none).orElse
        (fun _ => if isDigitChar c then (tryNumCore contBoundary s).map (·.1) else none))
    else none

/-- Scan a title for the first version token (`titleMatch[1].match(...)`,
process-docs.ts line 112). -/
def titleVersionGo (prev : Option Char) : Str → Option Str
  | [] => none
  | c :: r =>
    match tvAt prev (c :: r) with
    | some g => some g
    | none => titleVersionGo (some c) r

/-- Rule (a): a version token embedded in the title itself. -/
def titleVersion (t : Str) : Option Str := titleVersionGo none t

/-- The group `(.+)$` reached when `\s*`/`\s+` has consumed the run `W`
and nothing non-whitespace follows: the regex backtracks so that the
group is the last non-newline character of `W` (if the quantifier can
still consume `minLeft` characters before it). -/
def wsBacktrackGroup (minLeft : Nat) (W : Str) : Option Str :=
  match W.reverse.dropWhile (· = '\n') with
  | [] => none
  | c :: rest2 => if minLeft ≤ rest2.length then some [c] else none

/-- `^## Version\s+(.+)$` at a line start (rule (b) of version lookup). -/
def verHeadAt (s : Str) : Option Str :=
  if ("## Version".data).isPrefixOf s then
    let r := s.drop 10
    let W := r.takeWhile isWsChar
    if W.isEmpty then none
    else
      match r.dropWhile isWsChar with
      | [] => wsBacktrackGroup 1 W
      | c :: rest => some (c :: rest.takeWhile (· ≠ '\n'))
  else none

/-- Rule (b): `content.match(/^## Version\s+(.+)$/m)`, then `.trim()`. -/
def versionHeading (s : Str) : Option Str := (scanLines verHeadAt s).map jsTrim

/-- `^Version:\s*(.+)$` at a line start (rule (c) of version lookup). -/
def verMetaAt (s : Str) : Option Str :=
  if ("Version:".data).isPrefixOf s then
    let r := s.drop 8
    let W := r.takeWhile isWsChar
    match r.dropWhile isWsChar with
    | [] => wsBacktrackGroup 0 W
    | c :: rest => some (c :: rest.takeWhile (· ≠ '\n'))
  else none

/-- Rule (c): `content.match(/^Version:\s*(.+)$/m)`, then `.trim()`. -/
def versionMeta (s : Str) : Option Str := (scanLines verMetaAt s).map jsTrim

/-- Match attempt for rule (d),
`(?:^|\n)(?:v|version\s+)?(\d+\.\d+(?:\.\d+)?(?:-[a-zA-Z0-9.-]+)?)\s*$`
(multiline, case-sensitive), at a line start. -/
def verPatAt (s : Str) : Option Str :=
  match s with
  | [] => none
  | c :: r =>
    (if c = 'v' then (tryNumCore contLineEnd r).map (·.1) else none).orElse
    (fun _ =>
      (if ("version".data).isPrefixOf s then
        let r7 := s.drop 7
        if (r7.takeWhile isWsChar).isEmpty then none
        else (tryNumCore contLineEnd (r7.dropWhile isWsChar)).map (·.1)
      else none).orElse
      (fun _ => if isDigitChar c then (tryNumCore contLineEnd s).map (·.1) else none))

/-- Rule (d): a bare version token on a line of its own. -/
def versionPattern (s : Str) : Option Str := scanLines verPatAt s

/-- The four version rules in the source's order of preference: (a) the
title itself, (b) a `## Version` heading, (c) a `Version:` line, (d) a
bare version token (process-docs.ts lines 107-140). -/
def versionOf (content : Str) : Option Str :=
  match (firstH1 content).bind titleVersion with
  | some v => some v
  | none =>
    match versionHeading content with
    | some v => some v
    | none =>
      match versionMeta content with
      | some v => some v
      | none => versionPattern content

/-! ## Title cleanup (process-docs.ts lines 143-149) -/

/-- Match attempt for
`\s*\b(?:v|version\s+)?\d+\.\d+(?:\.\d+)?(?:-[a-zA-Z0-9.-]+)?\b` (`/i`)
at the current position; returns the rest of the string after the match
(the match is removed).  The `\s*` must consume the whole whitespace run
(the `\b` then requires a word character next, and inside the run only
whitespace follows), and the boundary needs a non-word predecessor. -/
def svAt (prev : Option Char) (s : Str) : Option Str :=
  let W := s.takeWhile isWsChar
  let j := s.dropWhile isWsChar
  let prevAtJ := if W.isEmpty then prev else some (W.getLastD ' ')
  match j with
  | [] => none
  | c :: r =>
    if ¬ isWordOpt prevAtJ then
      (if c = 'v' ∨ c = 'V' then (tryNumCore contBoundary r).map (·.2) else none).orElse
      (fun _ =>
        (if ciPrefixOf ("version".data) j then
          let r7 := j.drop 7
          if (r7.takeWhile isWsChar).isEmpty then none
          else (tryNumCore contBoundary (r7.dropWhile isWsChar)).map (·.2)
        else none).orElse
        (fun _ => if isDigitChar c then (tryNumCore contBoundary j).map (·.2) else none))
    else none

/-- `title.replace(/\s*\b...\b/i, '')`: remove the first version match
from the title (no `g` flag: first match only). -/
def stripVersionGo (prev : Option Char) : Str → Str
  | [] => []
  | c :: r =>
    match svAt prev (c :: r) with
    | some rest => rest
    | none => c :: stripVersionGo (some c) r

def stripVersionOnce (t : Str) : Str := stripVersionGo none t

/-! ## Body title removal (process-docs.ts lines 152-155) -/

/-- Whether `r2` starts with a `## Version ` line with a nonempty rest
(the optional group's `## Version .+` part). -/
def versionLineHead (r2 : Str) : Bool :=
  ("## Version ".data).isPrefixOf r2 &&
    (match r2.drop 11 with
     | c4 :: _ => c4 ≠ '\n'
     | [] => false)

/-- Match attempt for `^# .+$\n(## Version .+$\n)?` at a line start:
the h1 line (with its newline) and, optionally, an immediately following
`## Version ...` line (with its newline).  Returns the rest after the
removed block. -/
def titleBlockAt (s : Str) : Option Str :=
  match s with
  | c1 :: c2 :: c3 :: r =>
    if c1 = '#' ∧ c2 = ' ' ∧ c3 ≠ '\n' then
      match (c3 :: r).dropWhile (· ≠ '\n') with
      | '\n' :: r2 =>
        some (if versionLineHead r2 then
          match (r2.drop 11).dropWhile (· ≠ '\n') with
          | '\n' :: r3 => r3
          | _ => r2
        else r2)
      | _ => none
    else none
  | _ => none

/-- `processed.replace(/^# .+$\n(## Version .+$\n)?/m, '')`: remove the
first title block (first match only). -/
def removeTitleScanF : Nat → Str → Str
  | 0, s => s
  | fuel + 1, s =>
    match titleBlockAt s with
    | some rest => rest
    | none =>
      match s.dropWhile (· ≠ '\n') with
      | [] => s
      | _ :: r => s.takeWhile (· ≠ '\n') ++ '\n' :: removeTitleScanF fuel r

def removeTitleScan (s : Str) : Str := removeTitleScanF s.length s

theorem removeTitleScanF_invar :
    ∀ f s, s.length ≤ f → removeTitleScanF f s = removeTitleScanF s.length s := by
  intro f
  induction f using Nat.strong_induction_on with
  | _ f ih =>
    intro s hf
    match f with
    | 0 =>
      have : s.length = 0 := Nat.le_zero.mp hf
      rw [this]
    | f + 1 =>
      match hs : s.length with
      | 0 =>
        have : s = [] := List.length_eq_zero.mp hs
        subst this
        rfl
      | n + 1 =>
        simp only [removeTitleScanF]
        cases titleBlockAt s with
        | some rest => rfl
        | none =>
          cases h : s.dropWhile (· ≠ '\n') with
          | nil => rfl
          | cons d r =>
            have hr := dropWhile_cons_lt h
            dsimp only
            rw [ih f (Nat.lt_succ_self f) r (by omega),
              ih n (by omega) r (by omega)]

/-- The one-step unfolding of `removeTitleScan`. -/
theorem removeTitleScan_eq (s : Str) :
    removeTitleScan s =
      (match titleBlockAt s with
       | some rest => rest
       | none =>
         match s.dropWhile (· ≠ '\n') with
         | [] => s
         | _ :: r => s.takeWhile (· ≠ '\n') ++ '\n' :: removeTitleScan r) := by
  show removeTitleScanF s.length s = _
  match hs : s.length with
  | 0 =>
    have : s = [] := List.length_eq_zero.mp hs
    subst this
    rfl
  | n + 1 =>
    simp only [removeTitleScanF]
    cases titleBlockAt s with
    | some rest => rfl
    | none =>
      cases h : s.dropWhile (· ≠ '\n') with
      | nil => rfl
      | cons d r =>
        have hr := dropWhile_cons_lt h
        dsimp only
        rw [removeTitleScanF_invar n r (by omega)]
        rfl

/-- The body used for description extraction and link processing:
`processed` after the conditional title removal. -/
def bodyAfterTitle (content : Str) : Str :=
  if removeTitleFromBody ∧ (firstH1 content).isSome then removeTitleScan content
  else content

/-! ## Abstract extraction and description (process-docs.ts lines 157-165) -/

/-- The lookahead `(?=\n#|\n\n|$)` (no `/m`: `$` is end of string). -/
def abstractStop (rest : Str) : Bool :=
  rest.isEmpty || (['\n', '#'].isPrefixOf rest) || (['\n', '\n'].isPrefixOf rest)

/-- The lazy group `(.+?)` (with `/s`, so `.` matches newlines too):
grow from one character until the lookahead holds. -/
def grabAbstract : Str → Str
  | [] => []
  | c :: r => if abstractStop r then [c] else c :: grabAbstract r

/-- Match attempt for `# Abstract\s*\n\s*(.+?)(?=\n#|\n\n|$)` (`/s`) at
the current position.  `\s*\n\s*` consumes the whole whitespace run
following the literal, provided it contains a newline; if nothing
follows the run, the lazy group backtracks into the run and captures its
last character (possible only when something follows the run's first
newline). -/
def abstractAt (s : Str) : Option Str :=
  if ("# Abstract".data).isPrefixOf s then
    let r := s.drop 10
    let W := r.takeWhile isWsChar
    let R := r.dropWhile isWsChar
    if W.contains '\n' then
      if R.isEmpty then
        match W.dropWhile (· ≠ '\n') with
        | _ :: _ :: _ => some [W.getLastD ' ']
        | _ => none
      else some (grabAbstract R)
    else none
  else none

/-- `processed.match(/# Abstract\s*\n\s*(.+?)(?=\n#|\n\n|$)/s)`: first
match anywhere in the text (the pattern is unanchored). -/
def extractAbstract : Str → Option Str
  | [] => (if ("# Abstract".data).isPrefixOf [] then none else none)
  | c :: r =>
    match abstractAt (c :: r) with
    | some g => some g
    | none => extractAbstract r

/-- The frontmatter `description` (process-docs.ts lines 158-165):
sanitize the raw description (the abstract with newlines replaced by
spaces, or `Documentation for <cleanTitle>`), truncate to
`maxDescriptionLength`, and append an ellipsis when an abstract was
found. -/
def mkDescription (bodyProcessed cleanTitle : Str) : Str :=
  match extractAbstract bodyProcessed with
  | some a =>
    (sanitizeText (a.map (fun c => if c = '\n' then ' ' else c))).take maxDescriptionLength
      ++ "...".data
  | none =>
    (sanitizeText (("Documentation for ".data) ++ cleanTitle)).take maxDescriptionLength

/-! ## Link rewriting (link-processing.js) -/

/-- `URL_MAPPINGS` (link-processing.js lines 12-20). -/
def URL_MAPPINGS : List (Str × Str) :=
  [ ("https://github.com/ucan-wg/spec".data, "/specification/".data),
    ("https://github.com/ucan-wg/delegation".data, "/delegation/".data),
    ("https://github.com/ucan-wg/invocation".data, "/invocation/".data),
    ("https://github.com/ucan-wg/promise".data, "/promise/".data),
    ("https://github.com/ucan-wg/revocation".data, "/revocation/".data),
    ("https://github.com/ucan-wg/container".data, "/container/".data),
    ("https://github.com/ChainAgnostic/varsig".data, "/varsig/".data) ]

/-- The tail of a `\[([^\]]+)\]\(URL(#[^)]*)?\)` match, entered after the
opening `[`; returns the full replacement `[text](to hash)` and the rest
after the closing `)`. -/
def linkTail (fromUrl toUrl : Str) (s : Str) : Option (Str × Str) :=
  if (s.takeWhile (· ≠ ']')).isEmpty then none
  else
    match s.dropWhile (· ≠ ']') with
    | ']' :: '(' :: r2 =>
      if fromUrl.isPrefixOf r2 then
        match r2.drop fromUrl.length with
        | ')' :: r4 =>
          some ('[' :: s.takeWhile (· ≠ ']') ++ ']' :: '(' :: toUrl ++ [')'], r4)
        | '#' :: r5 =>
          (match r5.dropWhile (· ≠ ')') with
           | ')' :: r6 =>
             some ('[' :: s.takeWhile (· ≠ ']') ++ ']' :: '(' :: toUrl
               ++ '#' :: r5.takeWhile (· ≠ ')') ++ [')'], r6)
           | _ => none)
        | _ => none
      else none
    | _ => none

theorem linkTail_length {fromUrl toUrl s o r : Str}
    (h : linkTail fromUrl toUrl s = some (o, r)) : r.length < s.length := by
  unfold linkTail at h
  have h1 := length_dropWhile_le (· ≠ ']') s
  split at h
  · simp at h
  · split at h
    case h_1 r2 heq =>
      rw [heq] at h1
      simp only [List.length_cons] at h1
      split at h
      case isTrue hpre =>
        have h3 : (r2.drop fromUrl.length).length ≤ r2.length := by
          simp [List.length_drop]
        split at h
        case h_1 r4 heq2 =>
          rw [heq2] at h3
          simp only [List.length_cons] at h3
          simp only [Option.some.injEq, Prod.mk.injEq] at h
          rw [← h.2]
          omega
        case h_2 r5 heq2 =>
          rw [heq2] at h3
          simp only [List.length_cons] at h3
          have h5 := length_dropWhile_le (· ≠ ')') r5
          split at h
          case h_1 r6 heq3 =>
            rw [heq3] at h5
            simp only [List.length_cons] at h5
            simp only [Option.some.injEq, Prod.mk.injEq] at h
            rw [← h.2]
            omega
          case h_2 => simp at h
        case h_3 => simp at h
      case isFalse => simp at h
    case h_2 => simp at h

/-- Match attempt for the direct-link pattern at the current position. -/
def linkReplAt (fromUrl toUrl : Str) : Str → Option (Str × Str)
  | [] => none
  | c :: s0 => if c = '[' then linkTail fromUrl toUrl s0 else none

theorem linkReplAt_length (fromUrl toUrl : Str) : ∀ s o r,
    linkReplAt fromUrl toUrl s = some (o, r) → r.length < s.length := by
  intro s o r h
  match s with
  | [] => simp [linkReplAt] at h
  | c :: s0 =>
    simp only [linkReplAt] at h
    split at h
    · have := linkTail_length h
      simp only [List.length_cons]
      omega
    · simp at h

/-- One direct-link rewriting pass (the `linkPattern` replace in
`standardizeUCANLinks`). -/
def linkPass (fromUrl toUrl : Str) : Str → Str :=
  gsub (linkReplAt fromUrl toUrl) (linkReplAt_length fromUrl toUrl)

/-- `\s*$` (multiline) after the reference-definition URL: consume the
trailing whitespace up to (not including) the last newline of the run,
or everything when the run reaches the end of the string.  Returns the
rest of the input after the match. -/
def trailEol (s : Str) : Option Str :=
  if (s.dropWhile isWsChar).isEmpty then some []
  else if (s.takeWhile isWsChar).contains '\n' then
    some ('\n' :: ((s.takeWhile isWsChar).reverse.takeWhile (· ≠ '\n')).reverse
      ++ s.dropWhile isWsChar)
  else none

theorem takeWhile_ne_length_lt (c0 : Char) :
    ∀ l : Str, c0 ∈ l → (l.takeWhile (· ≠ c0)).length < l.length := by
  intro l hmem
  induction l with
  | nil => simp at hmem
  | cons c r ih =>
    by_cases hc : c = c0
    · subst hc
      simp [List.takeWhile]
    · have hmem' : c0 ∈ r := by
        rcases List.mem_cons.mp hmem with h | h
        · exact absurd h.symm hc
        · exact h
      have := ih hmem'
      simp only [List.takeWhile, List.length_cons]
      rw [show (decide (c ≠ c0)) = true by simpa using hc]
      simpa using Nat.succ_lt_succ this

theorem trailEol_length {s r : Str} (h : trailEol s = some r) :
    r.length ≤ s.length := by
  unfold trailEol at h
  split at h
  · simp only [Option.some.injEq] at h
    rw [← h]; simp
  · split at h
    case isTrue hw =>
      simp only [Option.some.injEq] at h
      have hmem : '\n' ∈ (s.takeWhile isWsChar).reverse := by
        rw [List.mem_reverse]
        simpa using hw
      have hlt := takeWhile_ne_length_lt '\n' _ hmem
      rw [List.length_reverse] at hlt
      have hsum : (s.takeWhile isWsChar).length + (s.dropWhile isWsChar).length
          = s.length := by
        rw [← List.length_append, List.takeWhile_append_dropWhile]
      rw [← h]
      simp only [List.length_cons, List.length_append, List.length_reverse]
      omega
    case isFalse => simp at h

/-- Match attempt for the reference-definition pattern
`^(\s*\[[^\]]+\]):\s*URL(#[^\s]*)?\s*$` (`gm`) at a line start.  The
leading `\s*` is part of the captured label group (it may cross lines;
the `[` must directly follow the consumed run).  Returns the replacement
`$1: to hash` and the unconsumed rest (which starts at the last newline
of the trailing whitespace run, or is empty). -/
def refTryAt (fromUrl toUrl : Str) (s : Str) : Option (Str × Str) :=
  match s.dropWhile isWsChar with
  | '[' :: r1 =>
    if (r1.takeWhile (· ≠ ']')).isEmpty then none
    else
      match r1.dropWhile (· ≠ ']') with
      | ']' :: ':' :: r2 =>
        if fromUrl.isPrefixOf (r2.dropWhile isWsChar) then
          match (r2.dropWhile isWsChar).drop fromUrl.length with
          | '#' :: r5 =>
            (trailEol (r5.dropWhile (fun c => ¬ isWsChar c))).map (fun rest =>
              (s.takeWhile isWsChar ++ '[' :: r1.takeWhile (· ≠ ']') ++ ']' :: ':' :: ' ' ::
                toUrl ++ '#' :: r5.takeWhile (fun c => ¬ isWsChar c), rest))
          | r4 =>
            (trailEol r4).map (fun rest =>
              (s.takeWhile isWsChar ++ '[' :: r1.takeWhile (· ≠ ']') ++ ']' :: ':' :: ' ' ::
                toUrl, rest))
        else none
      | _ => none
  | _ => none

theorem refTryAt_length {fromUrl toUrl s o r : Str}
    (h : refTryAt fromUrl toUrl s = some (o, r)) : r.length < s.length := by
  unfold refTryAt at h
  have h1 := length_dropWhile_le isWsChar s
  split at h
  case h_1 r1 heq =>
    rw [heq] at h1
    simp only [List.length_cons] at h1
    split at h
    · simp at h
    · have h2 := length_dropWhile_le (· ≠ ']') r1
      split at h
      case h_1 r2 heq2 =>
        rw [heq2] at h2
        simp only [List.length_cons] at h2
        split at h
        case isTrue hpre =>
          have h3 := length_dropWhile_le isWsChar r2
          have h4 : ((r2.dropWhile isWsChar).drop fromUrl.length).length ≤
              (r2.dropWhile isWsChar).length := by simp [List.length_drop]
          split at h
          case h_1 r5 heq3 =>
            rw [heq3] at h4
            simp only [List.length_cons] at h4
            have h5 := length_dropWhile_le (fun c => ¬ isWsChar c) r5
            cases h6 : trailEol (r5.dropWhile (fun c => ¬ isWsChar c)) with
            | none => rw [h6] at h; simp at h
            | some rest =>
              rw [h6] at h
              have h7 := trailEol_length h6
              simp only [Option.map_some', Option.some.injEq, Prod.mk.injEq] at h
              rw [← h.2]
              omega
          case h_2 r4 heq3 =>
            cases h6 : trailEol (List.drop fromUrl.length (r2.dropWhile isWsChar)) with
            | none => rw [h6] at h; simp at h
            | some rest =>
              rw [h6] at h
              have h7 := trailEol_length h6
              simp only [Option.map_some', Option.some.injEq, Prod.mk.injEq] at h
              rw [← h.2]
              omega
        case isFalse => simp at h
      case h_2 => simp at h
  case h_2 => simp at h

/-- One reference-definition rewriting pass (the `refPattern` replace in
`standardizeUCANLinks`): match attempts happen at line starts only (the
pattern is `^`-anchored with the `m` flag); a failed line is copied
through and scanning resumes after its newline. -/
def refPassF (fromUrl toUrl : Str) : Nat → Str → Str
  | 0, s => s
  | _ + 1, [] => []
  | fuel + 1, c :: cs =>
    match refTryAt fromUrl toUrl (c :: cs) with
    | some (o, rest) =>
      o ++ (match rest with
            | [] => []
            | d :: r2 => d :: refPassF fromUrl toUrl fuel r2)
    | none =>
      match (c :: cs).dropWhile (· ≠ '\n') with
      | [] => c :: cs
      | _ :: r => (c :: cs).takeWhile (· ≠ '\n') ++ '\n' :: refPassF fromUrl toUrl fuel r

def refPass (fromUrl toUrl : Str) (s : Str) : Str := refPassF fromUrl toUrl s.length s

theorem refPassF_invar (fromUrl toUrl : Str) :
    ∀ f s, s.length ≤ f → refPassF fromUrl toUrl f s = refPassF fromUrl toUrl s.length s := by
  intro f
  induction f using Nat.strong_induction_on with
  | _ f ih =>
    intro s hf
    match f, s with
    | 0, s =>
      have : s.length = 0 := Nat.le_zero.mp hf
      rw [this]
    | f + 1, [] => rfl
    | f + 1, c :: cs =>
      simp only [refPassF, List.length_cons]
      simp only [List.length_cons] at hf
      cases h : refTryAt fromUrl toUrl (c :: cs) with
      | some p =>
        obtain ⟨o, rest⟩ := p
        have hr := refTryAt_length h
        simp only [List.length_cons] at hr
        cases rest with
        | nil => rfl
        | cons d r2 =>
          simp only [List.length_cons] at hr
          dsimp only
          rw [ih f (Nat.lt_succ_self f) r2 (by omega),
            ih cs.length (by omega) r2 (by omega)]
      | none =>
        cases h2 : (c :: cs).dropWhile (· ≠ '\n') with
        | nil => rfl
        | cons d r =>
          have hr := dropWhile_cons_lt h2
          simp only [List.length_cons] at hr
          dsimp only
          rw [ih f (Nat.lt_succ_self f) r (by omega),
            ih cs.length (by omega) r (by omega)]

/-- The one-step unfolding of `refPass`. -/
theorem refPass_cons (fromUrl toUrl : Str) (c : Char) (cs : Str) :
    refPass fromUrl toUrl (c :: cs) =
      (match refTryAt fromUrl toUrl (c :: cs) with
       | some (o, rest) =>
         o ++ (match rest with
               | [] => []
               | d :: r2 => d :: refPass fromUrl toUrl r2)
       | none =>
         match (c :: cs).dropWhile (· ≠ '\n') with
         | [] => c :: cs
         | _ :: r => (c :: cs).takeWhile (· ≠ '\n') ++ '\n' :: refPass fromUrl toUrl r) := by
  show refPassF fromUrl toUrl (c :: cs).length (c :: cs) = _
  simp only [List.length_cons, refPassF]
  cases h : refTryAt fromUrl toUrl (c :: cs) with
  | some p =>
    obtain ⟨o, rest⟩ := p
    have hr := refTryAt_length h
    simp only [List.length_cons] at hr
    cases rest with
    | nil => rfl
    | cons d r2 =>
      simp only [List.length_cons] at hr
      dsimp only
      rw [refPassF_invar fromUrl toUrl cs.length r2 (by omega)]
      rfl
  | none =>
    cases h2 : (c :: cs).dropWhile (· ≠ '\n') with
    | nil => rfl
    | cons d r =>
      have hr := dropWhile_cons_lt h2
      simp only [List.length_cons] at hr
      dsimp only
      rw [refPassF_invar fromUrl toUrl cs.length r (by omega)]
      rfl

theorem refPass_nil (fromUrl toUrl : Str) : refPass fromUrl toUrl [] = [] := rfl

/-- `standardizeUCANLinks` (link-processing.js lines 34-63): for each URL
mapping, build the two variants (with and without a trailing slash) and,
for each variant, run the direct-link replace then the
reference-definition replace. -/
def urlVariants (fromUrl : Str) : List Str :=
  [fromUrl, if fromUrl.getLastD ' ' = '/' then fromUrl.dropLast else fromUrl ++ ['/']]

def standardizeUCANLinks (content : Str) : Str :=
  URL_MAPPINGS.foldl (fun acc m =>
    (urlVariants m.1).foldl (fun acc2 v => refPass v m.2 (linkPass v m.2 acc2)) acc) content

/-! ## Internal section links (process-docs.ts line 188) -/

/-- Match attempt for `\[([^\]]+)\]:\s*#([a-zA-Z0-9-]+)` (replacement
`[$1]: #$2`). -/
def anchorAt : Str → Option (Str × Str)
  | [] => none
  | c :: s0 =>
    if c = '[' then
      if (s0.takeWhile (· ≠ ']')).isEmpty then none
      else
        match s0.dropWhile (· ≠ ']') with
        | ']' :: ':' :: r2 =>
          match (r2.dropWhile isWsChar) with
          | '#' :: r4 =>
            if (r4.takeWhile isAnchorChar).isEmpty then none
            else some ('[' :: s0.takeWhile (· ≠ ']') ++ ']' :: ':' :: ' ' :: '#' ::
                r4.takeWhile isAnchorChar, r4.dropWhile isAnchorChar)
          | _ => none
        | _ => none
    else none

theorem anchorAt_length : ∀ s o r, anchorAt s = some (o, r) → r.length < s.length := by
  intro s o r h
  match s with
  | [] => simp [anchorAt] at h
  | c :: s0 =>
    simp only [anchorAt] at h
    split at h
    · split at h
      · simp at h
      · have h2 := length_dropWhile_le (· ≠ ']') s0
        split at h
        case h_1 r2 heq =>
          rw [heq] at h2
          simp only [List.length_cons] at h2
          have h3 := length_dropWhile_le isWsChar r2
          split at h
          case h_1 r4 heq2 =>
            rw [heq2] at h3
            simp only [List.length_cons] at h3
            split at h
            · simp at h
            · have h4 := length_dropWhile_le isAnchorChar r4
              simp only [Option.some.injEq, Prod.mk.injEq] at h
              simp only [List.length_cons]
              rw [← h.2]
              omega
          case h_2 => simp at h
        case h_2 => simp at h
    · simp at h

/-- `processed.replace(/\[([^\]]+)\]:\s*#([a-zA-Z0-9-]+)/g, '[$1]: #$2')`. -/
def internalAnchors : Str → Str := gsub anchorAt anchorAt_length

/-! ## Metadata-section removal (process-docs.ts lines 191-194) -/

/-- The lookahead `(?=\n## [^X]|\n# [^X]|$)` for a section whose name
starts with `forbidden`. -/
def isStop (forbidden : Char) : Str → Bool
  | [] => true
  | '\n' :: '#' :: '#' :: ' ' :: c :: _ => c ≠ forbidden
  | '\n' :: '#' :: ' ' :: c :: _ => c ≠ forbidden
  | _ => false

/-- The lazy `[\s\S]*?` before the lookahead: consume to the first stop
position. -/
def chopStop (forbidden : Char) : Str → Str
  | [] => []
  | s@(_ :: r) => if isStop forbidden s then s else chopStop forbidden r

theorem chopStop_length (forbidden : Char) :
    ∀ s : Str, (chopStop forbidden s).length ≤ s.length := by
  intro s
  induction s with
  | nil => simp [chopStop]
  | cons c r ih =>
    simp only [chopStop]
    split
    · simp
    · simp only [List.length_cons]
      omega

/-- Match attempt for `NAME\s*\n[\s\S]*?(?=\n## [^X]|\n# [^X]|$)` at the
current position (the pattern is unanchored, so `NAME` may match
anywhere).  `\s*\n` consumes the whitespace run up to and including its
last newline; the lazy tail then stops at the first stop position. -/
def sectionAt (name : Str) (forbidden : Char) (s : Str) : Option (Str × Str) :=
  if name.isPrefixOf s then
    if ((s.drop name.length).takeWhile isWsChar).contains '\n' then
      some ([], chopStop forbidden
        ((((s.drop name.length).takeWhile isWsChar).reverse.takeWhile (· ≠ '\n')).reverse
          ++ (s.drop name.length).dropWhile isWsChar))
    else none
  else none

theorem sectionAt_length {name : Str} {forbidden : Char} (hne : name ≠ []) :
    ∀ s o r, sectionAt name forbidden s = some (o, r) → r.length < s.length := by
  intro s o r h
  unfold sectionAt at h
  split at h
  case isTrue hpre =>
    split at h
    case isTrue hnl =>
      simp only [Option.some.injEq, Prod.mk.injEq] at h
      have hname : 1 ≤ name.length := by
        cases name with
        | nil => exact absurd rfl hne
        | cons x xs => simp
      have hplen : name.length ≤ s.length := isPrefixOf_length_le hpre
      have hchop := chopStop_length forbidden
        (((((s.drop name.length).takeWhile isWsChar).reverse.takeWhile (· ≠ '\n')).reverse
          ++ (s.drop name.length).dropWhile isWsChar))
      have hmem : '\n' ∈ ((s.drop name.length).takeWhile isWsChar).reverse := by
        rw [List.mem_reverse]
        simpa using hnl
      have hlt := takeWhile_ne_length_lt '\n' _ hmem
      rw [List.length_reverse] at hlt
      have hsum : ((s.drop name.length).takeWhile isWsChar).length
          + ((s.drop name.length).dropWhile isWsChar).length
          = (s.drop name.length).length := by
        rw [← List.length_append, List.takeWhile_append_dropWhile]
      rw [← h.2]
      simp only [List.length_append, List.length_reverse, List.length_drop] at hchop hsum ⊢
      omega
    case isFalse => simp at h
  case isFalse => simp at h

/-- One metadata-section removal pass. -/
def removeSection (name : Str) (forbidden : Char) (hne : name ≠ []) : Str → Str :=
  gsub (sectionAt name forbidden) (sectionAt_length hne)

/-- The four hardcoded removal passes (Editors, Authors, Dependencies,
Language), in source order. -/
def removeMetadataSections (s : Str) : Str :=
  removeSection ("## Language".data) 'L' (by simp)
    (removeSection ("## Dependencies".data) 'D' (by simp)
      (removeSection ("## Authors".data) 'A' (by simp)
        (removeSection ("## Editors".data) 'E' (by simp) s)))

/-! ## Edit-URL conversion (utils/github.utils.ts) -/

/-- `convertToEditUrl`: match
`^https:\/\/raw\.githubusercontent\.com\/([^\/]+)\/([^\/]+)\/([^\/]+)\/(.+)$`
and rebuild `https://github.com/owner/repo/blob/branch/filepath`. -/
def convertToEditUrl (rawUrl : Str) : Option Str :=
  if ("https://raw.githubusercontent.com/".data).isPrefixOf rawUrl then
    let r0 := rawUrl.drop 34
    let owner := r0.takeWhile (· ≠ '/')
    match r0.dropWhile (· ≠ '/') with
    | '/' :: r1 =>
      let repo := r1.takeWhile (· ≠ '/')
      match r1.dropWhile (· ≠ '/') with
      | '/' :: r2 =>
        let branch := r2.takeWhile (· ≠ '/')
        match r2.dropWhile (· ≠ '/') with
        | '/' :: filepath =>
          if owner.isEmpty || repo.isEmpty || branch.isEmpty || filepath.isEmpty
             || filepath.contains '\n' then none
          else
            some ("https://github.com/".data ++ owner ++ '/' :: repo
              ++ "/blob/".data ++ branch ++ '/' :: filepath)
        | _ => none
      | _ => none
    | _ => none
  else none

/-! ## processMarkdown (process-docs.ts lines 99-197) -/

/-- The extracted title: the first h1 heading, or the configured spec
title (`specName` parameter) as a fallback. -/
def titleOf (content specName : Str) : Str :=
  (firstH1 content).getD specName

/-- The cleaned display title: version stripped (only when a version was
found), trimmed, then sanitized. -/
def cleanTitleOf (content specName : Str) : Str :=
  sanitizeText (match versionOf content with
    | some _ => jsTrim (stripVersionOnce (titleOf content specName))
    | none => titleOf content specName)

/-- The frontmatter description of a document. -/
def descriptionOf (content specName : Str) : Str :=
  mkDescription (bodyAfterTitle content) (cleanTitleOf content specName)

/-- The transformed body: title removal, link standardization, internal
anchor normalization, metadata-section removal. -/
def processedBody (content : Str) : Str :=
  removeMetadataSections (internalAnchors (standardizeUCANLinks (bodyAfterTitle content)))

/-- `processMarkdown(content, specName, githubUrl)`: frontmatter plus the
transformed body. -/
def processMarkdown (content specName : Str) (githubUrl : Option Str) : Str :=
  "---\ntitle: \"".data ++ cleanTitleOf content specName
    ++ "\"\ndescription: \"".data ++ descriptionOf content specName ++ "\"".data
    ++ (match versionOf content with
        | some v => "\nversion: \"".data ++ v ++ "\"".data
        | none => [])
    ++ (match githubUrl.bind convertToEditUrl with
        | some u => "\neditUrl: \"".data ++ u ++ "\"".data
        | none => [])
    ++ "\n---\n\n".data
    ++ processedBody content

/-- `processIPLDSchema(schemaContent, specName)` (process-docs.ts lines
199-214). -/
def processIPLDSchema (schemaContent specName : Str) : Str :=
  "---\ntitle: \"".data ++ specName ++ " Schema\"\ndescription: \"IPLD schema definition for ".data
    ++ specName ++ "\"\n---\n\n# ".data ++ specName
    ++ " Schema\n\nThis document contains the IPLD schema definition for ".data ++ specName
    ++ ".\n\n".data ++ "```ipldsch\n".data ++ schemaContent ++ "\n```\n".data

/-! ## The Link Auditor (the content-format review tool, `processFile`)

Four sequential fixes: duplicate-link collapsing, header spacing, UCAN
link standardization (gated on `checkUCANLinkIssues`), and whitespace
cleanup.  Each `match ? replace : skip` step in the source is the
identity when the pattern has no match, so the unconditional replaces
below are extensionally the same transforms. -/

/-- Match attempt for the duplicate-link pattern
`(\[([^\]]+)\]\(([^)]+)\))\s*\1` (replacement `$1`).  The backreference
`\1` begins with `[`, which is not whitespace, so the greedy `\s*` must
consume the whole whitespace run. -/
def dupAt : Str → Option (Str × Str)
  | [] => none
  | c :: s0 =>
    if c = '[' then
      if (s0.takeWhile (· ≠ ']')).isEmpty then none
      else
        match s0.dropWhile (· ≠ ']') with
        | ']' :: '(' :: r2 =>
          if (r2.takeWhile (· ≠ ')')).isEmpty then none
          else
            match r2.dropWhile (· ≠ ')') with
            | ')' :: r3 =>
              if ('[' :: s0.takeWhile (· ≠ ']') ++ ']' :: '(' :: r2.takeWhile (· ≠ ')')
                  ++ [')']).isPrefixOf (r3.dropWhile isWsChar) then
                some ('[' :: s0.takeWhile (· ≠ ']') ++ ']' :: '(' :: r2.takeWhile (· ≠ ')')
                  ++ [')'],
                  (r3.dropWhile isWsChar).drop
                    ((s0.takeWhile (· ≠ ']')).length + (r2.takeWhile (· ≠ ')')).length + 4))
              else none
            | _ => none
        | _ => none
    else none

theorem dupAt_length : ∀ s o r, dupAt s = some (o, r) → r.length < s.length := by
  intro s o r h
  match s with
  | [] => simp [dupAt] at h
  | c :: s0 =>
    simp only [dupAt] at h
    split at h
    · split at h
      · simp at h
      · have h2 := length_dropWhile_le (· ≠ ']') s0
        split at h
        case h_1 r2 heq =>
          rw [heq] at h2
          simp only [List.length_cons] at h2
          split at h
          · simp at h
          · have h3 := length_dropWhile_le (· ≠ ')') r2
            split at h
            case h_1 r3 heq2 =>
              rw [heq2] at h3
              simp only [List.length_cons] at h3
              split at h
              · have h4 := length_dropWhile_le isWsChar r3
                simp only [Option.some.injEq, Prod.mk.injEq] at h
                have h5 : ((r3.dropWhile isWsChar).drop
                    ((s0.takeWhile (· ≠ ']')).length + (r2.takeWhile (· ≠ ')')).length + 4)).length
                    ≤ (r3.dropWhile isWsChar).length := by
                  simp [List.length_drop]
                simp only [List.length_cons]
                rw [← h.2]
                omega
              · simp at h
            case h_2 => simp at h
        case h_2 => simp at h
    · simp at h

/-- Fix 1: `content.replace(/(\[([^\]]+)\]\(([^)]+)\))\s*\1/g, '$1')`. -/
def dupPass : Str → Str := gsub dupAt dupAt_length

/-- `[ \t]` (the trailing-whitespace class). -/
def isSpTab (c : Char) : Bool := c = ' ' || c = '\t'

/-- Match attempt for `[ \t]+$` (`gm`): a run of spaces/tabs directly
before a newline or the end of the string (replacement: empty). -/
def trailWsAt : Str → Option (Str × Str)
  | [] => none
  | c :: s0 =>
    if isSpTab c then
      if (s0.dropWhile isSpTab).isEmpty then some ([], s0.dropWhile isSpTab)
      else if (s0.dropWhile isSpTab).head? = some '\n' then some ([], s0.dropWhile isSpTab)
      else none
    else none

theorem trailWsAt_length : ∀ s o r, trailWsAt s = some (o, r) → r.length < s.length := by
  intro s o r h
  match s with
  | [] => simp [trailWsAt] at h
  | c :: s0 =>
    simp only [trailWsAt] at h
    have h2 := length_dropWhile_le isSpTab s0
    split at h
    · split at h
      · simp only [Option.some.injEq, Prod.mk.injEq] at h
        simp only [List.length_cons]
        rw [← h.2]
        omega
      · split at h
        · simp only [Option.some.injEq, Prod.mk.injEq] at h
          simp only [List.length_cons]
          rw [← h.2]
          omega
        · simp at h
    · simp at h

/-- Fix 4a: `content.replace(/[ \t]+$/gm, '')`. -/
def wsA : Str → Str := gsub trailWsAt trailWsAt_length

/-- Match attempt for `\n{3,}` (replacement `\n\n`): the greedy run
consumes every following newline. -/
def nlRunAt : Str → Option (Str × Str)
  | c1 :: c2 :: c3 :: s0 =>
    if c1 = '\n' ∧ c2 = '\n' ∧ c3 = '\n' then
      some (['\n', '\n'], s0.dropWhile (· = '\n'))
    else none
  | _ => none

theorem nlRunAt_length : ∀ s o r, nlRunAt s = some (o, r) → r.length < s.length := by
  intro s o r h
  match s with
  | [] => simp [nlRunAt] at h
  | [c1] => simp [nlRunAt] at h
  | [c1, c2] => simp [nlRunAt] at h
  | c1 :: c2 :: c3 :: s0 =>
    simp only [nlRunAt] at h
    split at h
    · simp only [Option.some.injEq, Prod.mk.injEq] at h
      have h2 := length_dropWhile_le (· = '\n') s0
      simp only [List.length_cons]
      rw [← h.2]
      omega
    · simp at h

/-- Fix 4b: `content.replace(/\n{3,}/g, '\n\n')`. -/
def wsB : Str → Str := gsub nlRunAt nlRunAt_length

/-- Fix 2: `content.replace(/^(#{1,6})([^\s#])/gm, '$1 $2')`.  The first
argument tracks whether the scanner is at a line start (`^` with `m`). -/
def hpGoF : Nat → Bool → Str → Str
  | 0, _, s => s
  | _ + 1, _, [] => []
  | fuel + 1, atLS, c :: r =>
    if atLS ∧ c = '#' then
      if (r.takeWhile (· = '#')).length + 1 ≤ 6 then
        match r.dropWhile (· = '#') with
        | d :: rest2 =>
          if ¬ isWsChar d ∧ d ≠ '#' then
            '#' :: r.takeWhile (· = '#') ++ ' ' :: d :: hpGoF fuel false rest2
          else c :: hpGoF fuel false r
        | [] => c :: hpGoF fuel false r
      else c :: hpGoF fuel false r
    else c :: hpGoF fuel (c = '\n') r

def hpGo (atLS : Bool) (s : Str) : Str := hpGoF s.length atLS s

theorem hpGoF_invar :
    ∀ f atLS s, s.length ≤ f → hpGoF f atLS s = hpGoF s.length atLS s := by
  intro f
  induction f using Nat.strong_induction_on with
  | _ f ih =>
    intro atLS s hf
    match f, s with
    | 0, s =>
      have : s.length = 0 := Nat.le_zero.mp hf
      rw [this]
    | f + 1, [] => rfl
    | f + 1, c :: r =>
      simp only [hpGoF, List.length_cons]
      simp only [List.length_cons] at hf
      split
      · split
        · split
          · rename_i d rest2 heq
            have hr := dropWhile_cons_lt heq
            split
            · rw [ih f (Nat.lt_succ_self f) false rest2 (by omega),
                ih r.length (by omega) false rest2 (by omega)]
            · rw [ih f (Nat.lt_succ_self f) false r (by omega),
                ih r.length (by omega) false r (by omega)]
          · rw [ih f (Nat.lt_succ_self f) false r (by omega),
              ih r.length (by omega) false r (by omega)]
        · rw [ih f (Nat.lt_succ_self f) false r (by omega),
            ih r.length (by omega) false r (by omega)]
      · rw [ih f (Nat.lt_succ_self f) (c = '\n') r (by omega),
          ih r.length (by omega) (c = '\n') r (by omega)]

/-- The one-step unfolding of `hpGo`. -/
theorem hpGo_cons (atLS : Bool) (c : Char) (r : Str) :
    hpGo atLS (c :: r) =
      (if atLS ∧ c = '#' then
        if (r.takeWhile (· = '#')).length + 1 ≤ 6 then
          match r.dropWhile (· = '#') with
          | d :: rest2 =>
            if ¬ isWsChar d ∧ d ≠ '#' then
              '#' :: r.takeWhile (· = '#') ++ ' ' :: d :: hpGo false rest2
            else c :: hpGo false r
          | [] => c :: hpGo false r
        else c :: hpGo false r
      else c :: hpGo (c = '\n') r) := by
  show hpGoF (c :: r).length atLS (c :: r) = _
  simp only [List.length_cons, hpGoF]
  split
  · split
    · split
      · rename_i d rest2 heq
        have hr := dropWhile_cons_lt heq
        split
        · rw [hpGoF_invar r.length false rest2 (by omega)]
          rfl
        · rfl
      · rfl
    · rfl
  · rfl

theorem hpGo_nil (atLS : Bool) : hpGo atLS [] = [] := rfl

/-- The header-spacing pass (applied from a line start). -/
def headerPass (s : Str) : Str := hpGo true s

/-- Whether the direct-link pattern for `fromUrl` matches anywhere (the
presence half of `checkUCANLinkIssues`; whether a match exists does not
depend on the mapping's target). -/
def linkHit (fromUrl : Str) : Str → Bool
  | [] => false
  | c :: s0 => (c = '[' && (linkTail fromUrl [] s0).isSome) || linkHit fromUrl s0

/-- Whether the reference-definition pattern for `fromUrl` matches at
some line start. -/
def refHitF (fromUrl : Str) : Nat → Str → Bool
  | 0, _ => false
  | fuel + 1, s =>
    (refTryAt fromUrl [] s).isSome ||
      (match s.dropWhile (· ≠ '\n') with
       | [] => false
       | _ :: r => refHitF fromUrl fuel r)

def refHit (fromUrl : Str) (s : Str) : Bool := refHitF fromUrl (s.length + 1) s

theorem refHitF_invar (fromUrl : Str) :
    ∀ f s, s.length + 1 ≤ f → refHitF fromUrl f s = refHitF fromUrl (s.length + 1) s := by
  intro f
  induction f using Nat.strong_induction_on with
  | _ f ih =>
    intro s hf
    match f with
    | 0 => omega
    | f + 1 =>
      simp only [refHitF]
      cases h : s.dropWhile (· ≠ '\n') with
      | nil => rfl
      | cons d r =>
        have hr := dropWhile_cons_lt h
        dsimp only
        rw [ih f (Nat.lt_succ_self f) r (by omega),
          ih (s.length) (by omega) r (by omega)]

/-- The one-step unfolding of `refHit`. -/
theorem refHit_eq (fromUrl : Str) (s : Str) :
    refHit fromUrl s =
      ((refTryAt fromUrl [] s).isSome ||
        (match s.dropWhile (· ≠ '\n') with
         | [] => false
         | _ :: r => refHit fromUrl r)) := by
  show refHitF fromUrl (s.length + 1) s = _
  simp only [refHitF]
  cases h : s.dropWhile (· ≠ '\n') with
  | nil => rfl
  | cons d r =>
    have hr := dropWhile_cons_lt h
    dsimp only
    rw [refHitF_invar fromUrl s.length r (by omega)]
    rfl

/-- `checkUCANLinkIssues(content).length > 0` (link-processing.js lines
70-100): some URL-mapping variant has a direct-link or a
reference-definition match. -/
def checkUCANLinkIssues (s : Str) : Bool :=
  URL_MAPPINGS.any (fun m => (urlVariants m.1).any (fun v => linkHit v s || refHit v s))

/-- `processFile`'s fix pipeline (dry-run false): duplicate links, header
spacing, UCAN link standardization (only when the check reports issues),
whitespace cleanup. -/
def processFileFix (content : Str) : Str :=
  wsB (wsA
    (if checkUCANLinkIssues (headerPass (dupPass content)) then
      standardizeUCANLinks (headerPass (dupPass content))
    else headerPass (dupPass content)))

/-! ## processSpecs, clearDocsDirectory and the output tree
(process-docs.ts lines 52-97, 216-249, 263-293)

The effectful part of the pipeline is modelled as an event trace:
directory creations, fetch attempts, file writes and log messages, in
program order.  `fetch` is an oracle mapping a URL to its result
(`Except` = the promise rejecting).  A filesystem state is the set of
directories and file paths under the output root `src/content/docs`
(the sidebar manifest is written outside that root and is not part of
this state). -/

/-- `SpecConfig` (scripts/types/processing.types.ts). -/
structure SpecConfig where
  name : Str
  title : Str
  githubUrl : Str
  schemaUrl : Option Str
deriving DecidableEq

/-- One filesystem / console event. -/
inductive Ev where
  | mkdirEv (p : Str)
  | fetchEv (url : Str)
  | writeEv (p : Str) (content : Str)
  | logErrorEv (name : Str)
  | logWarnEv (name : Str)
deriving DecidableEq

/-- The events of the per-spec processing loop body (process-docs.ts
lines 65-96): fetch the primary document; on failure log the error and
do nothing else (the `catch` of the outer `try`); on success write
`<name>/index.md` and, when a schema URL is configured, fetch it and
either log a warning (inner `catch`) or write `<name>/schema.md`. -/
def entryEvents (fetch : Str → Except Str Str) (spec : SpecConfig) : List Ev :=
  Ev.fetchEv spec.githubUrl ::
    (match fetch spec.githubUrl with
     | .error _ => [Ev.logErrorEv spec.name]
     | .ok content =>
       Ev.writeEv (spec.name ++ "/index.md".data)
           (processMarkdown content spec.title (some spec.githubUrl)) ::
         (match spec.schemaUrl with
          | none => []
          | some su =>
            Ev.fetchEv su ::
              (match fetch su with
               | .error _ => [Ev.logWarnEv spec.name]
               | .ok sc => [Ev.writeEv (spec.name ++ "/schema.md".data)
                   (processIPLDSchema sc spec.title)])))

/-- `processSpecs`: first the directory-creation loop over all specs
(plus the guides directory), then the processing loop. -/
def processSpecsEvents (fetch : Str → Except Str Str) (specs : List SpecConfig) : List Ev :=
  (specs.map (fun s => Ev.mkdirEv s.name)) ++ [Ev.mkdirEv "guides".data]
    ++ (specs.map (entryEvents fetch)).join

/-- `createTemplateContent`: the static template tree
(scripts/templates) copied verbatim into the output root.  The write
contents are the template file bodies; they are irrelevant to the claims
and left empty here. -/
def templateEvents : List Ev :=
  [ Ev.writeEv "examples.md".data [],
    Ev.writeEv "getting-started.md".data [],
    Ev.mkdirEv "guides".data,
    Ev.writeEv "guides/getting-started.md".data [],
    Ev.mkdirEv "libraries".data,
    Ev.writeEv "libraries/implementation.md".data [] ]

/-- A filesystem state under the output root: directory paths and file
paths. -/
structure FS where
  dirs : List Str
  files : List Str
deriving DecidableEq

def applyEv (fs : FS) : Ev → FS
  | Ev.mkdirEv p => ⟨p :: fs.dirs, fs.files⟩
  | Ev.writeEv p _ => ⟨fs.dirs, p :: fs.files⟩
  | _ => fs

def applyEvents (fs : FS) (evs : List Ev) : FS := evs.foldl applyEv fs

/-- The first path segment of a path. -/
def topName (p : Str) : Str := p.takeWhile (· ≠ '/')

/-- `clearDocsDirectory`: every top-level item of the output root other
than `.gitkeep` is removed recursively (`fs.rm`/`fs.unlink`), so exactly
the entries whose first segment is `.gitkeep` survive. -/
def clearDocsDirectory (fs : FS) : FS :=
  ⟨fs.dirs.filter (fun p => topName p = ".gitkeep".data),
   fs.files.filter (fun p => topName p = ".gitkeep".data)⟩

/-- `main` (without the sidebar manifest, which lives outside the output
root): clear, process the specs, copy the templates. -/
def runPipeline (fetch : Str → Except Str Str) (specs : List SpecConfig) (fs0 : FS) : FS :=
  applyEvents (clearDocsDirectory fs0) (processSpecsEvents fetch specs ++ templateEvents)

/-- The write paths of an event list. -/
def writtenPaths (evs : List Ev) : List Str :=
  evs.filterMap (fun e => match e with | Ev.writeEv p _ => some p | _ => none)

/-- Whether an event is a fetch. -/
def isFetchEv : Ev → Bool
  | Ev.fetchEv _ => true
  | _ => false

/-- The mkdir paths of an event list. -/
def mkdirPaths (evs : List Ev) : List Str :=
  evs.filterMap (fun e => match e with | Ev.mkdirEv p => some p | _ => none)

/-! ## Shared lemmas about the replace driver and the event model -/

/-- `cleanF tryAt s`: the match attempt fails at every position of `s`
(so the corresponding global replace leaves `s` unchanged). -/
def cleanF (tryAt : Str → Option (Str × Str)) : Str → Bool
  | [] => (tryAt []).isNone
  | c :: r => (tryAt (c :: r)).isNone && cleanF tryAt r

theorem gsub_eq_self (tryAt : Str → Option (Str × Str))
    (hlt : ∀ s o r, tryAt s = some (o, r) → r.length < s.length)
    (s : Str) (h : cleanF tryAt s = true) : gsub tryAt hlt s = s := by
  induction s with
  | nil => exact gsub_nil tryAt hlt
  | cons c cs ih =>
    rw [gsub_cons]
    simp only [cleanF, Bool.and_eq_true] at h
    cases htry : tryAt (c :: cs) with
    | some p => rw [htry] at h; simp at h
    | none => simp only []; rw [ih h.2]

theorem cleanF_suffix {tryAt : Str → Option (Str × Str)} :
    ∀ {s t : Str}, cleanF tryAt s = true → t <:+ s → cleanF tryAt t = true := by
  intro s
  induction s with
  | nil =>
    intro t h ht
    rw [List.suffix_nil.mp ht]
    exact h
  | cons c cs ih =>
    intro t h ht
    simp only [cleanF, Bool.and_eq_true] at h
    rcases List.suffix_cons_iff.mp ht with h1 | h1
    · rw [h1]
      simp only [cleanF, Bool.and_eq_true]
      exact ⟨h.1, h.2⟩
    · exact ih h.2 h1

theorem takeWhile_append_all {p : Char → Bool} :
    ∀ {l : Str}, (∀ c ∈ l, p c = true) → ∀ r : Str,
      (l ++ r).takeWhile p = l ++ r.takeWhile p := by
  intro l
  induction l with
  | nil => intro _ r; rfl
  | cons c cs ih =>
    intro h r
    simp only [List.cons_append, List.takeWhile]
    rw [h c (by simp)]
    simp only [List.append_eq]
    rw [ih (fun x hx => h x (by simp [hx])) r]

theorem dropWhile_append_all {p : Char → Bool} :
    ∀ {l : Str}, (∀ c ∈ l, p c = true) → ∀ r : Str,
      (l ++ r).dropWhile p = r.dropWhile p := by
  intro l
  induction l with
  | nil => intro _ r; rfl
  | cons c cs ih =>
    intro h r
    simp only [List.cons_append, List.dropWhile]
    rw [h c (by simp)]
    exact ih (fun x hx => h x (by simp [hx])) r

theorem take_isPrefixOf : ∀ (l : Str) (n : Nat), (l.take n).isPrefixOf l = true := by
  intro l
  induction l with
  | nil => intro n; cases n <;> rfl
  | cons c cs ih =>
    intro n
    cases n with
    | zero => rfl
    | succ m =>
      simp only [List.take, List.isPrefixOf, beq_self_eq_true, Bool.true_and]
      exact ih m

theorem writtenPaths_append (a b : List Ev) :
    writtenPaths (a ++ b) = writtenPaths a ++ writtenPaths b := by
  simp [writtenPaths, List.filterMap_append]

theorem writtenPaths_join : ∀ L : List (List Ev),
    writtenPaths L.join = (L.map writtenPaths).join := by
  intro L
  induction L with
  | nil => rfl
  | cons a L ih => simp [List.join, writtenPaths_append, ih]

theorem mkdirPaths_append (a b : List Ev) :
    mkdirPaths (a ++ b) = mkdirPaths a ++ mkdirPaths b := by
  simp [mkdirPaths, List.filterMap_append]

theorem mem_applyEvents_files : ∀ (evs : List Ev) (fs : FS) (p : Str),
    (p ∈ (applyEvents fs evs).files ↔ p ∈ fs.files ∨ p ∈ writtenPaths evs) := by
  intro evs
  induction evs with
  | nil => intro fs p; simp [applyEvents, writtenPaths]
  | cons e evs ih =>
    intro fs p
    show p ∈ (applyEvents (applyEv fs e) evs).files ↔ _
    rw [ih]
    cases e <;> simp [applyEv, writtenPaths, List.filterMap] <;> tauto

theorem mem_applyEvents_dirs : ∀ (evs : List Ev) (fs : FS) (p : Str),
    (p ∈ (applyEvents fs evs).dirs ↔ p ∈ fs.dirs ∨ p ∈ mkdirPaths evs) := by
  intro evs
  induction evs with
  | nil => intro fs p; simp [applyEvents, mkdirPaths]
  | cons e evs ih =>
    intro fs p
    show p ∈ (applyEvents (applyEv fs e) evs).dirs ↔ _
    rw [ih]
    cases e <;> simp [applyEv, mkdirPaths, List.filterMap] <;> tauto

theorem topName_append {name : Str} (h : '/' ∉ name) (rest : Str) :
    topName (name ++ '/' :: rest) = name := by
  unfold topName
  rw [takeWhile_append_all (p := fun c => decide (c ≠ '/'))
    (fun c hc => by simp; exact fun he => h (he ▸ hc))]
  simp [List.takeWhile]

/-! ## The claims -/

/-- C1: version extraction tries the four rules in strict priority order —
(a) a version token in the title, (b) a `## Version ...` heading, (c) a
`Version: ...` metadata line, (d) a bare version token on its own line —
keeping only the first matching rule's result; and for a document whose
first top-level heading is `Container Format v1.0.0-rc.1`, the extracted
version is `1.0.0-rc.1` and the cleaned title is `Container Format`. -/
theorem C1_version_priority_order :
    (∀ c v, (firstH1 c).bind titleVersion = some v → versionOf c = some v) ∧
    (∀ c v, (firstH1 c).bind titleVersion = none → versionHeading c = some v →
      versionOf c = some v) ∧
    (∀ c v, (firstH1 c).bind titleVersion = none → versionHeading c = none →
      versionMeta c = some v → versionOf c = some v) ∧
    (∀ c, (firstH1 c).bind titleVersion = none → versionHeading c = none →
      versionMeta c = none → versionOf c = versionPattern c) ∧
    versionOf ("# Container Format v1.0.0-rc.1\n\nSome body text.\n").data
      = some ("1.0.0-rc.1").data ∧
    cleanTitleOf ("# Container Format v1.0.0-rc.1\n\nSome body text.\n").data
      ("Container").data = ("Container Format").data := by
  refine ⟨?_, ?_, ?_, ?_, by decide, by decide⟩
  · intro c v h
    unfold versionOf
    rw [h]
  · intro c v h1 h2
    unfold versionOf
    rw [h1, h2]
  · intro c v h1 h2 h3
    unfold versionOf
    rw [h1, h2, h3]
  · intro c h1 h2 h3
    unfold versionOf
    rw [h1, h2, h3]

/-- Witness for C1: each of the four priority rules observed on a concrete
document (rules (b), (c) and (d) fire exactly when the earlier rules fail). -/
theorem C1_version_priority_order_witness :
    versionOf ("# Plain Title\n\n## Version 2.0\n").data = some ("2.0").data ∧
    versionOf ("# Plain Title\n\nVersion: 3.1\n").data = some ("3.1").data ∧
    versionOf ("# Plain Title\n\nv4.2\n").data
      = versionPattern ("# Plain Title\n\nv4.2\n").data :=
  ⟨C1_version_priority_order.2.1 _ _ (by decide) (by decide),
   C1_version_priority_order.2.2.1 _ _ (by decide) (by decide) (by decide),
   C1_version_priority_order.2.2.2.1 _ (by decide) (by decide) (by decide)⟩

/-- C3 (amended): for a document with a `# Abstract` section, the
description is the sanitized newline-collapsed abstract truncated to
`maxDescriptionLength` characters with a literal `...` appended; its
length is at most `maxDescriptionLength + 3`, and the part before the
appended ellipsis is a prefix of the sanitized collapsed abstract.  (The
original claim's character-exclusion and whole-string-prefix conjuncts are
false, see the counterexample.) -/
theorem C3_description_truncation (content specName a : Str)
    (h : extractAbstract (bodyAfterTitle content) = some a) :
    descriptionOf content specName =
      (sanitizeText (a.map (fun ch => if ch = '\n' then ' ' else ch))).take
        maxDescriptionLength ++ ("...").data ∧
    (descriptionOf content specName).length ≤ maxDescriptionLength + 3 ∧
    ((descriptionOf content specName).take ((descriptionOf content specName).length - 3)).isPrefixOf
      (sanitizeText (a.map (fun ch => if ch = '\n' then ' ' else ch))) = true := by
  have hd : descriptionOf content specName =
      (sanitizeText (a.map (fun ch => if ch = '\n' then ' ' else ch))).take
        maxDescriptionLength ++ ("...").data := by
    unfold descriptionOf mkDescription
    rw [h]
  refine ⟨hd, ?_, ?_⟩
  · rw [hd]
    simp only [List.length_append, List.length_take, List.length_cons, List.length_nil]
    omega
  · rw [hd]
    have h3 : (("...").data).length = 3 := by decide
    have hlen : ((sanitizeText (a.map (fun ch => if ch = '\n' then ' ' else ch))).take
        maxDescriptionLength ++ ("...").data).length - 3 =
        ((sanitizeText (a.map (fun ch => if ch = '\n' then ' ' else ch))).take
          maxDescriptionLength).length := by
      simp only [List.length_append, h3]
      omega
    rw [hlen, List.take_left]
    exact take_isPrefixOf _ _

/-- C3 counterexample: a document whose abstract is `A ] B * x` — the
generated description keeps the `]` and `*` characters that sanitization
does not remove (they are not part of any paired markdown construct), and,
because of the appended ellipsis, the description is not a prefix of the
sanitized abstract. -/
theorem C3_description_truncation_cex :
    ']' ∈ descriptionOf ("# T\n\n# Abstract\n\nA ] B * x\n\n# Next\nend\n").data ("T").data ∧
    '*' ∈ descriptionOf ("# T\n\n# Abstract\n\nA ] B * x\n\n# Next\nend\n").data ("T").data ∧
    (descriptionOf ("# T\n\n# Abstract\n\nA ] B * x\n\n# Next\nend\n").data ("T").data).isPrefixOf
      (sanitizeText ("A ] B * x").data) = false := by decide

/-- Witness for C3: the amended theorem applied to that same concrete
document (its abstract is `A ] B * x`). -/
theorem C3_description_truncation_witness :
    (descriptionOf ("# T\n\n# Abstract\n\nA ] B * x\n\n# Next\nend\n").data ("T").data).length
      ≤ maxDescriptionLength + 3 :=
  (C3_description_truncation ("# T\n\n# Abstract\n\nA ] B * x\n\n# Next\nend\n").data
    ("T").data ("A ] B * x").data (by decide)).2.1

/-- C4 (amended): for a document without a `# Abstract` section, the
description is the sanitized `Documentation for <cleanTitle>` string
truncated to `maxDescriptionLength` characters (so never longer than
`maxDescriptionLength`), and it equals the untruncated string exactly when
that string does not exceed `maxDescriptionLength`.  (The original claim's
unconditional no-truncation conjunct is false for long titles, see the
counterexample.) -/
theorem C4_description_fallback (content specName : Str)
    (h : extractAbstract (bodyAfterTitle content) = none) :
    descriptionOf content specName =
      (sanitizeText (("Documentation for ").data ++ cleanTitleOf content specName)).take
        maxDescriptionLength ∧
    (descriptionOf content specName).length ≤ maxDescriptionLength ∧
    ((sanitizeText (("Documentation for ").data ++ cleanTitleOf content specName)).length
        ≤ maxDescriptionLength →
      descriptionOf content specName =
        sanitizeText (("Documentation for ").data ++ cleanTitleOf content specName)) := by
  have hd : descriptionOf content specName =
      (sanitizeText (("Documentation for ").data ++ cleanTitleOf content specName)).take
        maxDescriptionLength := by
    unfold descriptionOf mkDescription
    rw [h]
  refine ⟨hd, ?_, ?_⟩
  · rw [hd]
    simp [List.length_take]
  · intro hle
    rw [hd, List.take_of_length_le hle]

set_option maxRecDepth 100000 in
/-- C4 counterexample: a document whose only h1 title is 150 `a`s and which
has no Abstract — `Documentation for <cleanTitle>` is 168 characters long,
so the emitted description is its 160-character truncation, not the full
string. -/
theorem C4_description_fallback_cex :
    descriptionOf ("# aaaaaaaaaaaaaaaaaaaaaaaaaaaaaaaaaaaaaaaaaaaaaaaaaaaaaaaaaaaaaaaaaaaaaaaaaaaaaaaaaaaaaaaaaaaaaaaaaaaaaaaaaaaaaaaaaaaaaaaaaaaaaaaaaaaaaaaaaaaaaaaaaa\n\nBody.\n").data ("S").data
      ≠ ("Documentation for ").data
        ++ cleanTitleOf ("# aaaaaaaaaaaaaaaaaaaaaaaaaaaaaaaaaaaaaaaaaaaaaaaaaaaaaaaaaaaaaaaaaaaaaaaaaaaaaaaaaaaaaaaaaaaaaaaaaaaaaaaaaaaaaaaaaaaaaaaaaaaaaaaaaaaaaaaaaaaaaaaaaa\n\nBody.\n").data ("S").data := by
  decide

/-- Witness for C4: the amended theorem applied to a short-title document,
where no truncation happens. -/
theorem C4_description_fallback_witness :
    descriptionOf ("# Short Title\n\nBody.\n").data ("S").data =
      sanitizeText (("Documentation for ").data
        ++ cleanTitleOf ("# Short Title\n\nBody.\n").data ("S").data) :=
  (C4_description_fallback ("# Short Title\n\nBody.\n").data ("S").data (by decide)).2.2
    (by decide)

set_option maxHeartbeats 4000000 in
/-- C9: the transformer splices the cleaned title and the description
verbatim between literal double quotes in the frontmatter, with no
escaping; sanitization keeps `"` characters, so a title containing one
yields a frontmatter line with an unescaped embedded double quote. -/
theorem C9_frontmatter_unescaped_quotes :
    (∀ content specName gh, ∃ rest,
      processMarkdown content specName gh =
        ("---\ntitle: \"").data ++ cleanTitleOf content specName
          ++ ("\"\ndescription: \"").data ++ descriptionOf content specName
          ++ ("\"").data ++ rest) ∧
    '"' ∈ sanitizeText ("Say \"Hello\" Spec").data ∧
    '"' ∈ cleanTitleOf ("# Say \"Hello\" Spec\n\nBody.\n").data ("S").data ∧
    containsSub (processMarkdown ("# Say \"Hello\" Spec\n\nBody.\n").data ("S").data none)
      ("title: \"Say \"Hello\" Spec\"").data = true := by
  refine ⟨?_, by decide, by decide, by decide⟩
  intro content specName gh
  unfold processMarkdown
  simp only [List.append_assoc]
  exact ⟨_, rfl⟩

/-- The lazy tail of the section pattern consumes `body` whole when no
position inside it satisfies the stop lookahead, stopping exactly at
`tail`. -/
theorem chopStop_through (forbidden : Char) (tail : Str)
    (hstop : isStop forbidden tail = true) :
    ∀ body : Str,
      body.tails.all (fun t => t.isEmpty || !(isStop forbidden (t ++ tail))) = true →
      chopStop forbidden (body ++ tail) = tail := by
  intro body
  induction body with
  | nil =>
    intro _
    simp only [List.nil_append]
    cases tail with
    | nil => rfl
    | cons c r =>
      unfold chopStop
      rw [if_pos hstop]
  | cons b br ih =>
    intro h
    simp only [List.tails_cons, List.all_cons, Bool.and_eq_true] at h
    have hno : isStop forbidden ((b :: br) ++ tail) = false := by
      have := h.1
      simp only [List.isEmpty_cons, Bool.false_or, Bool.not_eq_true'] at this
      exact this
    simp only [List.cons_append] at hno ⊢
    unfold chopStop
    rw [if_neg (by simp [hno])]
    exact ih (by simpa using h.2)

/-- C5 (amended): a named metadata section is removed from its heading to
the first position satisfying the pattern's stop lookahead — the next
`## `/`# ` heading whose first title character DIFFERS from the section
name's first letter, or the end of the document — and a document in which
the pattern matches nowhere passes through unchanged.  (The original
claim's "up to the next heading of equal-or-higher level" and "no other
content is removed" are false: a following heading starting with the same
letter is swallowed too, see the counterexample.) -/
theorem C5_section_removal :
    (∀ (name : Str) (forbidden : Char) (hne : name ≠ []) (b0 : Char) (brest tail : Str),
      isWsChar b0 = false →
      (b0 :: brest).tails.all (fun t => t.isEmpty || !(isStop forbidden (t ++ tail))) = true →
      isStop forbidden tail = true →
      cleanF (sectionAt name forbidden) tail = true →
      removeSection name forbidden hne (name ++ ('\n' :: ((b0 :: brest) ++ tail))) = tail) ∧
    (∀ (name : Str) (forbidden : Char) (hne : name ≠ []) (s : Str),
      cleanF (sectionAt name forbidden) s = true →
      removeSection name forbidden hne s = s) ∧
    removeMetadataSections ("# T\n\n## Editors\nalice\n\n## Other\nbody\n").data
      = ("# T\n\n\n## Other\nbody\n").data := by
  refine ⟨?_, ?_, by decide⟩
  · intro name forbidden hne b0 brest tail hb0 hthrough hstop hclean
    have hsec : sectionAt name forbidden (name ++ ('\n' :: ((b0 :: brest) ++ tail)))
        = some ([], tail) := by
      unfold sectionAt
      rw [isPrefixOf_append name ('\n' :: ((b0 :: brest) ++ tail)), if_pos rfl,
        List.drop_left]
      have hW : ('\n' :: ((b0 :: brest) ++ tail)).takeWhile isWsChar = ['\n'] := by
        simp only [List.cons_append, List.takeWhile]
        rw [show isWsChar '\n' = true from by decide, hb0]
      have hR : ('\n' :: ((b0 :: brest) ++ tail)).dropWhile isWsChar
          = (b0 :: brest) ++ tail := by
        simp only [List.cons_append, List.dropWhile]
        rw [show isWsChar '\n' = true from by decide, hb0]
        rfl
      rw [hW, hR]
      simp only [List.contains_cons, beq_self_eq_true, Bool.true_or, if_true]
      rw [show (['\n'] : Str).reverse.takeWhile (· ≠ '\n') = [] from by decide]
      simp only [List.reverse_nil, List.nil_append]
      rw [chopStop_through forbidden tail hstop _ hthrough]
    cases name with
    | nil => exact absurd rfl hne
    | cons n0 nrest =>
      unfold removeSection
      rw [List.cons_append] at hsec ⊢
      rw [gsub_cons]
      rw [hsec]
      simp only [List.nil_append]
      exact gsub_eq_self _ _ tail hclean
  · intro name forbidden hne s h
    exact gsub_eq_self _ _ s h

/-- C5 counterexample: removing `## Editors` also swallows the following
`## Examples` section (its title starts with the same letter `E`, which
the lookahead `[^E]` refuses), so content outside the four named metadata
sections is removed as well. -/
theorem C5_section_removal_cex :
    removeMetadataSections ("## Editors\nalice\n## Examples\nstuff\n## Other\nmore").data
      = ("\n## Other\nmore").data ∧
    containsSub ("## Editors\nalice\n## Examples\nstuff\n## Other\nmore").data
      ("## Examples").data = true ∧
    containsSub
      (removeMetadataSections ("## Editors\nalice\n## Examples\nstuff\n## Other\nmore").data)
      ("## Examples").data = false := by decide

/-- Witness for C5: the parametric removal theorem applied to a concrete
`## Editors` section followed by a stop heading. -/
theorem C5_section_removal_witness :
    removeSection ("## Editors").data 'E' (by decide)
        (("## Editors").data ++ ('\n' :: (('a' :: ("lice").data) ++ ("\n## Other\nx").data)))
      = ("\n## Other\nx").data :=
  C5_section_removal.1 ("## Editors").data 'E' (by decide) 'a' ("lice").data
    ("\n## Other\nx").data (by decide) (by decide) (by decide) (by decide)

/-- Every write of one entry's processing goes to that entry's
`index.md` or `schema.md`. -/
theorem writtenPaths_entryEvents_sub (fetch : Str → Except Str Str) (t : SpecConfig) :
    ∀ p ∈ writtenPaths (entryEvents fetch t),
      p = t.name ++ ("/index.md").data ∨ p = t.name ++ ("/schema.md").data := by
  intro p hp
  unfold entryEvents at hp
  cases hf : fetch t.githubUrl with
  | error e =>
    rw [hf] at hp
    simp [writtenPaths, List.filterMap] at hp
  | ok content =>
    rw [hf] at hp
    dsimp only at hp
    cases hs : t.schemaUrl with
    | none =>
      rw [hs] at hp
      simp [writtenPaths, List.filterMap] at hp
      exact Or.inl hp
    | some su =>
      rw [hs] at hp
      dsimp only at hp
      cases hf2 : fetch su with
      | error e =>
        rw [hf2] at hp
        simp [writtenPaths, List.filterMap] at hp
        exact Or.inl hp
      | ok sc =>
        rw [hf2] at hp
        simp [writtenPaths, List.filterMap] at hp
        tauto

/-- The writes of a run are the per-entry writes in entry order. -/
theorem writtenPaths_processSpecs (fetch : Str → Except Str Str) (specs : List SpecConfig) :
    writtenPaths (processSpecsEvents fetch specs)
      = (specs.map (fun s => writtenPaths (entryEvents fetch s))).join := by
  unfold processSpecsEvents
  rw [List.append_assoc, writtenPaths_append, writtenPaths_append, writtenPaths_join]
  have h1 : writtenPaths (specs.map (fun s => Ev.mkdirEv s.name)) = [] := by
    simp [writtenPaths, List.filterMap_map]
  rw [h1, List.map_map]
  rfl

/-- The mkdir loop's paths are the entry names. -/
theorem mkdirPaths_map_mkdir (specs : List SpecConfig) :
    mkdirPaths (specs.map (fun t => Ev.mkdirEv t.name)) = specs.map (·.name) := by
  induction specs with
  | nil => rfl
  | cons a l ih => simpa [mkdirPaths, List.filterMap_cons] using ih

/-- Concrete configurations and fetch oracles used by the witnesses. -/
def specA : SpecConfig := ⟨("alpha").data, ("Alpha").data, ("urlA").data, none⟩

def specB : SpecConfig :=
  ⟨("beta").data, ("Beta").data, ("urlB").data, some (("urlBs").data)⟩

def specP : SpecConfig := ⟨("promise").data, ("Promise").data, ("urlP").data, none⟩

def fetchGood : Str → Except Str Str := fun _ => Except.ok (("# T\n").data)

def fetchFailA : Str → Except Str Str := fun u =>
  if u = ("urlA").data then Except.error (("down").data) else Except.ok (("# T\n").data)

def fetchFailSchema : Str → Except Str Str := fun u =>
  if u = ("urlBs").data then Except.error (("down").data) else Except.ok (("# T\n").data)

/-- C7: per-entry failure containment — a primary-document fetch failure
produces only the fetch and an error log for that entry (no write), a
schema-fetch failure logs a warning and omits only the schema page while
the primary page is still written, and the writes of a whole run are
exactly the per-entry writes in order (one entry's outcome cannot affect
another's). -/
theorem C7_fetch_failure_isolation :
    (∀ (fetch : Str → Except Str Str) (s : SpecConfig) (e : Str),
      fetch s.githubUrl = Except.error e →
      entryEvents fetch s = [Ev.fetchEv s.githubUrl, Ev.logErrorEv s.name] ∧
      writtenPaths (entryEvents fetch s) = []) ∧
    (∀ (fetch : Str → Except Str Str) (s : SpecConfig) (content : Str),
      fetch s.githubUrl = Except.ok content → s.schemaUrl = none →
      writtenPaths (entryEvents fetch s) = [s.name ++ ("/index.md").data]) ∧
    (∀ (fetch : Str → Except Str Str) (s : SpecConfig) (content su e : Str),
      fetch s.githubUrl = Except.ok content → s.schemaUrl = some su →
      fetch su = Except.error e →
      writtenPaths (entryEvents fetch s) = [s.name ++ ("/index.md").data] ∧
      Ev.logWarnEv s.name ∈ entryEvents fetch s) ∧
    (∀ (fetch : Str → Except Str Str) (specs : List SpecConfig),
      writtenPaths (processSpecsEvents fetch specs)
        = (specs.map (fun s => writtenPaths (entryEvents fetch s))).join) := by
  refine ⟨?_, ?_, ?_, fun fetch specs => writtenPaths_processSpecs fetch specs⟩
  · intro fetch s e h
    unfold entryEvents
    rw [h]
    exact ⟨rfl, rfl⟩
  · intro fetch s content h hs
    unfold entryEvents
    rw [h, hs]
    rfl
  · intro fetch s content su e h hs h2
    unfold entryEvents
    rw [h]
    dsimp only
    rw [hs]
    dsimp only
    rw [h2]
    exact ⟨rfl, by simp⟩

/-- Witness for C7: a failing primary fetch yields only a log entry, a
failing schema fetch still writes the primary page, and a mixed run's
writes decompose per entry. -/
theorem C7_fetch_failure_isolation_witness :
    entryEvents fetchFailA specA = [Ev.fetchEv (("urlA").data), Ev.logErrorEv (("alpha").data)] ∧
    writtenPaths (entryEvents fetchFailSchema specB)
      = [("beta").data ++ ("/index.md").data] ∧
    writtenPaths (processSpecsEvents fetchFailA [specA, specB])
      = ([specA, specB].map (fun s => writtenPaths (entryEvents fetchFailA s))).join :=
  ⟨(C7_fetch_failure_isolation.1 fetchFailA specA (("down").data) (by rfl)).1,
   (C7_fetch_failure_isolation.2.2.1 fetchFailSchema specB (("# T\n").data)
     (("urlBs").data) (("down").data) (by rfl) (by rfl) (by rfl)).1,
   C7_fetch_failure_isolation.2.2.2 fetchFailA [specA, specB]⟩

/-- C8: clearing keeps exactly the entries named `.gitkeep` (everything
else, file or directory, is removed), a successfully fetched entry's
`index.md` is present after a run, and a path under an entry name that the
second run's configuration does not include is absent after that second
run (clean-slate invariant). -/
theorem C8_clear_output_tree :
    (∀ (fs : FS) (p : Str),
      (p ∈ (clearDocsDirectory fs).files ↔ p ∈ fs.files ∧ topName p = (".gitkeep").data) ∧
      (p ∈ (clearDocsDirectory fs).dirs ↔ p ∈ fs.dirs ∧ topName p = (".gitkeep").data)) ∧
    (∀ (fetch : Str → Except Str Str) (specs : List SpecConfig) (fs0 : FS) (s : SpecConfig)
        (content : Str),
      s ∈ specs → fetch s.githubUrl = Except.ok content →
      (s.name ++ ("/index.md").data) ∈ (runPipeline fetch specs fs0).files) ∧
    (∀ (fetch1 fetch2 : Str → Except Str Str) (specs1 specs2 : List SpecConfig) (fs0 : FS),
      (∀ t ∈ specs2, '/' ∉ t.name ∧ t.name ≠ ("promise").data) →
      ("promise/index.md").data
        ∉ (runPipeline fetch2 specs2 (runPipeline fetch1 specs1 fs0)).files) := by
  refine ⟨?_, ?_, ?_⟩
  · intro fs p
    constructor
    · simp [clearDocsDirectory, List.mem_filter]
    · simp [clearDocsDirectory, List.mem_filter]
  · intro fetch specs fs0 s content hs hf
    unfold runPipeline
    rw [mem_applyEvents_files]
    refine Or.inr ?_
    rw [writtenPaths_append, writtenPaths_processSpecs]
    refine List.mem_append.mpr (Or.inl ?_)
    rw [List.mem_join]
    refine ⟨writtenPaths (entryEvents fetch s), List.mem_map.mpr ⟨s, hs, rfl⟩, ?_⟩
    unfold entryEvents
    rw [hf]
    cases s.schemaUrl with
    | none => simp [writtenPaths, List.filterMap]
    | some su =>
      cases fetch su with
      | error e => simp [writtenPaths, List.filterMap]
      | ok sc => simp [writtenPaths, List.filterMap]
  · intro fetch1 fetch2 specs1 specs2 fs0 huniq hmem
    unfold runPipeline at hmem
    rw [mem_applyEvents_files] at hmem
    rcases hmem with hold | hnew
    · have := ((by
        intro fs p
        simp [clearDocsDirectory, List.mem_filter]) :
          ∀ (fs : FS) (p : Str),
            p ∈ (clearDocsDirectory fs).files ↔
              p ∈ fs.files ∧ topName p = (".gitkeep").data) _ _ |>.mp hold
      have ht : topName (("promise/index.md").data) = ("promise").data := by decide
      rw [ht] at this
      exact absurd this.2 (by decide)
    · rw [writtenPaths_append, writtenPaths_processSpecs] at hnew
      rcases List.mem_append.mp hnew with hspec | htmpl
      · rw [List.mem_join] at hspec
        obtain ⟨l, hl, hpl⟩ := hspec
        obtain ⟨t, ht, rfl⟩ := List.mem_map.mp hl
        have hshape := writtenPaths_entryEvents_sub fetch2 t _ hpl
        have htop : topName (("promise/index.md").data) = ("promise").data := by decide
        have hslash : '/' ∉ t.name := (huniq t ht).1
        rcases hshape with h | h
        · have : topName (("promise/index.md").data) = t.name := by
            rw [h, show ("/index.md").data = '/' :: ("index.md").data from rfl,
              topName_append hslash]
          rw [htop] at this
          exact absurd this.symm (huniq t ht).2
        · have : topName (("promise/index.md").data) = t.name := by
            rw [h, show ("/schema.md").data = '/' :: ("schema.md").data from rfl,
              topName_append hslash]
          rw [htop] at this
          exact absurd this.symm (huniq t ht).2
      · revert htmpl
        decide

/-- Witness for C8: a first run that includes the `promise` entry writes
`promise/index.md`; a second run without it leaves no such file. -/
theorem C8_clear_output_tree_witness :
    (("promise").data ++ ("/index.md").data)
      ∈ (runPipeline fetchGood [specP] ⟨[], [(".gitkeep").data]⟩).files ∧
    ("promise/index.md").data
      ∉ (runPipeline fetchGood [specA]
          (runPipeline fetchGood [specP] ⟨[], [(".gitkeep").data]⟩)).files :=
  ⟨C8_clear_output_tree.2.1 fetchGood [specP] ⟨[], [(".gitkeep").data]⟩ specP
      (("# T\n").data) (by decide) (by rfl),
   C8_clear_output_tree.2.2 fetchGood fetchGood [specP] [specA]
      ⟨[], [(".gitkeep").data]⟩ (by decide)⟩

/-- C2: a markdown inline link or reference definition whose target is a
mapped repository URL (optionally followed by a `#fragment`) is rewritten
to the local path with the fragment preserved, and the scan continues
after the rewritten link (so every occurrence is rewritten); concretely,
`[UCAN Delegation](https://github.com/ucan-wg/delegation)` becomes
`[UCAN Delegation](/delegation/)`, the trailing-slash variant and
fragments are handled, and reference definitions are rewritten too. -/
theorem C2_link_rewrite :
    (∀ (fromUrl toUrl text frag post : Str), text ≠ [] → ']' ∉ text → ')' ∉ frag →
      linkPass fromUrl toUrl
          ('[' :: (text ++ (']' :: '(' :: (fromUrl ++ ('#' :: (frag ++ (')' :: post)))))))
        = ('[' :: (text ++ (']' :: '(' :: (toUrl ++ ('#' :: (frag ++ [')']))))))
            ++ linkPass fromUrl toUrl post) ∧
    (∀ (fromUrl toUrl text post : Str), text ≠ [] → ']' ∉ text →
      linkPass fromUrl toUrl ('[' :: (text ++ (']' :: '(' :: (fromUrl ++ (')' :: post)))))
        = ('[' :: (text ++ (']' :: '(' :: (toUrl ++ [')'])))) ++ linkPass fromUrl toUrl post) ∧
    (∀ (f0 : Char) (fr toUrl label : Str) (p0 : Char) (pr : Str),
      label ≠ [] → ']' ∉ label → isWsChar f0 = false → isWsChar p0 = false →
      refPass (f0 :: fr) toUrl
          ('[' :: (label ++ (']' :: ':' :: ' ' :: f0 :: (fr ++ ('\n' :: p0 :: pr)))))
        = ('[' :: (label ++ (']' :: ':' :: ' ' :: toUrl)))
            ++ ('\n' :: refPass (f0 :: fr) toUrl (p0 :: pr))) ∧
    standardizeUCANLinks
        ("See [UCAN Delegation](https://github.com/ucan-wg/delegation) spec.").data
      = ("See [UCAN Delegation](/delegation/) spec.").data ∧
    standardizeUCANLinks ("[a](https://github.com/ucan-wg/spec/#sec)").data
      = ("[a](/specification/#sec)").data ∧
    standardizeUCANLinks ("[l]: https://github.com/ucan-wg/promise#frag\nnext").data
      = ("[l]: /promise/#frag\nnext").data := by
  have ite_t : ∀ {α : Type} (a b : α), (if (true = true) then a else b) = a :=
    fun a b => if_pos rfl
  have ite_f : ∀ {α : Type} (a b : α), (if (false = true) then a else b) = b :=
    fun a b => if_neg (by simp)
  refine ⟨?_, ?_, ?_, by decide, by decide, by decide⟩
  · intro fromUrl toUrl text frag post hne hbr hfr
    obtain ⟨t0, tr, rfl⟩ : ∃ t0 tr, text = t0 :: tr := by
      cases text with
      | nil => exact absurd rfl hne
      | cons a b => exact ⟨a, b, rfl⟩
    have htext : ∀ c ∈ (t0 :: tr : Str), (fun ch => decide (ch ≠ ']')) c = true := by
      intro c hc
      simp only [decide_eq_true_eq]
      exact fun he => hbr (he ▸ hc)
    have hfrag : ∀ c ∈ frag, (fun ch => decide (ch ≠ ')')) c = true := by
      intro c hc
      simp only [decide_eq_true_eq]
      exact fun he => hfr (he ▸ hc)
    unfold linkPass
    rw [gsub_cons]
    have htail : linkTail fromUrl toUrl
        ((t0 :: tr) ++ (']' :: '(' :: (fromUrl ++ ('#' :: (frag ++ (')' :: post))))))
        = some ('[' :: ((t0 :: tr) ++ (']' :: '(' :: (toUrl
            ++ ('#' :: (frag ++ [')']))))), post) := by
      unfold linkTail
      rw [takeWhile_append_all htext, dropWhile_append_all htext]
      have e1 : List.takeWhile (fun ch => decide (ch ≠ ']'))
          (']' :: '(' :: (fromUrl ++ ('#' :: (frag ++ (')' :: post))))) = [] := by
        simp
      have e2 : List.dropWhile (fun ch => decide (ch ≠ ']'))
          (']' :: '(' :: (fromUrl ++ ('#' :: (frag ++ (')' :: post)))))
          = ']' :: '(' :: (fromUrl ++ ('#' :: (frag ++ (')' :: post)))) := by
        simp
      rw [e1, e2]
      simp only [List.append_nil]
      rw [if_neg (by simp : ¬(((t0 :: tr : Str)).isEmpty = true))]
      rw [isPrefixOf_append fromUrl ('#' :: (frag ++ (')' :: post))), ite_t,
        List.drop_left]
      have eA : List.takeWhile (fun ch => decide (ch ≠ ')')) (frag ++ (')' :: post))
          = frag := by
        rw [takeWhile_append_all hfrag]
        simp
      have eB : List.dropWhile (fun ch => decide (ch ≠ ')')) (frag ++ (')' :: post))
          = ')' :: post := by
        rw [dropWhile_append_all hfrag]
        simp
      simp only [eA, eB]
      simp [List.append_assoc]
    simp only [linkReplAt]
    rw [if_pos trivial, htail]
  · intro fromUrl toUrl text post hne hbr
    obtain ⟨t0, tr, rfl⟩ : ∃ t0 tr, text = t0 :: tr := by
      cases text with
      | nil => exact absurd rfl hne
      | cons a b => exact ⟨a, b, rfl⟩
    have htext : ∀ c ∈ (t0 :: tr : Str), (fun ch => decide (ch ≠ ']')) c = true := by
      intro c hc
      simp only [decide_eq_true_eq]
      exact fun he => hbr (he ▸ hc)
    unfold linkPass
    rw [gsub_cons]
    have htail : linkTail fromUrl toUrl
        ((t0 :: tr) ++ (']' :: '(' :: (fromUrl ++ (')' :: post))))
        = some ('[' :: ((t0 :: tr) ++ (']' :: '(' :: (toUrl ++ [')']))), post) := by
      unfold linkTail
      rw [takeWhile_append_all htext, dropWhile_append_all htext]
      have e1 : List.takeWhile (fun ch => decide (ch ≠ ']'))
          (']' :: '(' :: (fromUrl ++ (')' :: post))) = [] := by
        simp
      have e2 : List.dropWhile (fun ch => decide (ch ≠ ']'))
          (']' :: '(' :: (fromUrl ++ (')' :: post)))
          = ']' :: '(' :: (fromUrl ++ (')' :: post)) := by
        simp
      rw [e1, e2]
      simp only [List.append_nil]
      rw [if_neg (by simp : ¬(((t0 :: tr : Str)).isEmpty = true))]
      rw [isPrefixOf_append fromUrl (')' :: post), ite_t, List.drop_left]
      simp [List.append_assoc]
    simp only [linkReplAt]
    rw [if_pos trivial, htail]
  · intro f0 fr toUrl label p0 pr hne hbr hf0 hp0
    obtain ⟨l0, lr, rfl⟩ : ∃ l0 lr, label = l0 :: lr := by
      cases label with
      | nil => exact absurd rfl hne
      | cons a b => exact ⟨a, b, rfl⟩
    have hlabel : ∀ c ∈ (l0 :: lr : Str), (fun ch => decide (ch ≠ ']')) c = true := by
      intro c hc
      simp only [decide_eq_true_eq]
      exact fun he => hbr (he ▸ hc)
    rw [refPass_cons]
    have htry : refTryAt (f0 :: fr) toUrl
        ('[' :: ((l0 :: lr) ++ (']' :: ':' :: ' ' :: f0 :: (fr ++ ('\n' :: p0 :: pr)))))
        = some (('[' :: ((l0 :: lr) ++ (']' :: ':' :: ' ' :: toUrl))), '\n' :: p0 :: pr) := by
      unfold refTryAt
      have hdw0 : ('[' :: ((l0 :: lr) ++ (']' :: ':' :: ' ' :: f0 :: (fr
          ++ ('\n' :: p0 :: pr))))).dropWhile isWsChar
          = '[' :: ((l0 :: lr) ++ (']' :: ':' :: ' ' :: f0 :: (fr ++ ('\n' :: p0 :: pr)))) := by
        rw [List.dropWhile_cons, show isWsChar '[' = false from by decide, ite_f]
      have e1 : List.takeWhile (fun ch => decide (ch ≠ ']'))
          (']' :: ':' :: ' ' :: f0 :: (fr ++ ('\n' :: p0 :: pr))) = [] := by
        simp
      have e2 : List.dropWhile (fun ch => decide (ch ≠ ']'))
          (']' :: ':' :: ' ' :: f0 :: (fr ++ ('\n' :: p0 :: pr)))
          = ']' :: ':' :: ' ' :: f0 :: (fr ++ ('\n' :: p0 :: pr)) := by
        simp
      have hdw2 : (' ' :: f0 :: (fr ++ ('\n' :: p0 :: pr))).dropWhile isWsChar
          = f0 :: (fr ++ ('\n' :: p0 :: pr)) := by
        rw [List.dropWhile_cons, show isWsChar ' ' = true from by decide, ite_t,
          List.dropWhile_cons, hf0, ite_f]
      have hpre : List.isPrefixOf (f0 :: fr) (f0 :: (fr ++ ('\n' :: p0 :: pr))) = true := by
        simp only [List.isPrefixOf, beq_self_eq_true, Bool.true_and]
        exact isPrefixOf_append fr ('\n' :: p0 :: pr)
      have htr : trailEol ('\n' :: p0 :: pr) = some ('\n' :: p0 :: pr) := by
        unfold trailEol
        have h1 : ('\n' :: p0 :: pr).dropWhile isWsChar = p0 :: pr := by
          rw [List.dropWhile_cons, show isWsChar '\n' = true from by decide, ite_t,
            List.dropWhile_cons, hp0, ite_f]
        have h2 : ('\n' :: p0 :: pr).takeWhile isWsChar = ['\n'] := by
          rw [List.takeWhile_cons, show isWsChar '\n' = true from by decide, ite_t,
            List.takeWhile_cons, hp0, ite_f]
        rw [h1, h2]
        simp
      have hwt : ('[' :: ((l0 :: lr) ++ (']' :: ':' :: ' ' :: f0 :: (fr
          ++ ('\n' :: p0 :: pr))))).takeWhile isWsChar = [] := by
        rw [List.takeWhile_cons, show isWsChar '[' = false from by decide, ite_f]
      rw [hdw0]
      simp only []
      rw [takeWhile_append_all hlabel, dropWhile_append_all hlabel, e1, e2]
      simp only [List.append_nil]
      rw [if_neg (by simp : ¬(((l0 :: lr : Str)).isEmpty = true))]
      rw [hdw2, hpre, ite_t]
      simp only [List.length_cons, List.drop_succ_cons, List.drop_left]
      split
      · rename_i r5 heq
        simp at heq
      · rw [htr, hwt]
        simp [List.append_assoc]
    rw [htry]

/-- Witness for C2: the three universal rewrite rules applied at concrete
links (fragment link, plain link, reference definition). -/
theorem C2_link_rewrite_witness :
    linkPass ("u").data ("/d/").data
        ('[' :: (("t").data ++ (']' :: '(' :: (("u").data
          ++ ('#' :: (("f").data ++ (')' :: ("x").data)))))))
      = ('[' :: (("t").data ++ (']' :: '(' :: (("/d/").data
          ++ ('#' :: (("f").data ++ [')']))))))
          ++ linkPass ("u").data ("/d/").data ("x").data ∧
    linkPass ("u").data ("/d/").data
        ('[' :: (("t").data ++ (']' :: '(' :: (("u").data ++ (')' :: ("x").data)))))
      = ('[' :: (("t").data ++ (']' :: '(' :: (("/d/").data ++ [')']))))
          ++ linkPass ("u").data ("/d/").data ("x").data ∧
    refPass ('u' :: ("rl").data) ("/d/").data
        ('[' :: (("l").data ++ (']' :: ':' :: ' ' :: 'u' :: (("rl").data
          ++ ('\n' :: 'n' :: ("ext").data)))))
      = ('[' :: (("l").data ++ (']' :: ':' :: ' ' :: ("/d/").data)))
          ++ ('\n' :: refPass ('u' :: ("rl").data) ("/d/").data ('n' :: ("ext").data)) :=
  ⟨C2_link_rewrite.1 ("u").data ("/d/").data ("t").data ("f").data ("x").data
      (by decide) (by decide) (by decide),
   C2_link_rewrite.2.1 ("u").data ("/d/").data ("t").data ("x").data
      (by decide) (by decide),
   C2_link_rewrite.2.2.1 'u' ("rl").data ("/d/").data ("l").data 'n' ("ext").data
      (by decide) (by decide) (by decide) (by decide)⟩

/-- C10: every entry's output directory is created (in the initial mkdir
loop) before any fetch happens, so after a run in which an entry's primary
fetch failed the directory named after the entry exists even though
nothing was written under it. -/
theorem C10_mkdir_before_fetch :
    (∀ (fetch : Str → Except Str Str) (specs : List SpecConfig),
      ∃ pre post, processSpecsEvents fetch specs = pre ++ post ∧
        (∀ e ∈ pre, isFetchEv e = false) ∧
        (∀ s ∈ specs, Ev.mkdirEv s.name ∈ pre)) ∧
    (∀ (fetch : Str → Except Str Str) (specs : List SpecConfig) (fs0 : FS) (s : SpecConfig)
        (e : Str),
      s ∈ specs → fetch s.githubUrl = Except.error e →
      s.name ∈ (runPipeline fetch specs fs0).dirs ∧
      writtenPaths (entryEvents fetch s) = []) ∧
    (∀ (fetch : Str → Except Str Str) (specs : List SpecConfig) (fs0 : FS) (s : SpecConfig)
        (e : Str),
      s ∈ specs → fetch s.githubUrl = Except.error e →
      (∀ t ∈ specs, '/' ∉ t.name ∧ (t.name = s.name → t.githubUrl = s.githubUrl)) →
      s.name ≠ (".gitkeep").data →
      (s.name ++ ("/index.md").data) ∉ (runPipeline fetch specs fs0).files) := by
  refine ⟨?_, ?_, ?_⟩
  · intro fetch specs
    refine ⟨specs.map (fun s => Ev.mkdirEv s.name) ++ [Ev.mkdirEv ("guides").data],
      (specs.map (entryEvents fetch)).join, ?_, ?_, ?_⟩
    · unfold processSpecsEvents
      simp [List.append_assoc]
    · intro e he
      rcases List.mem_append.mp he with h | h
      · obtain ⟨t, _, rfl⟩ := List.mem_map.mp h
        rfl
      · simp at h
        rw [h]
        rfl
    · intro s hs
      exact List.mem_append.mpr (Or.inl (List.mem_map.mpr ⟨s, hs, rfl⟩))
  · intro fetch specs fs0 s e hs hf
    constructor
    · unfold runPipeline
      rw [mem_applyEvents_dirs]
      refine Or.inr ?_
      rw [mkdirPaths_append]
      refine List.mem_append.mpr (Or.inl ?_)
      unfold processSpecsEvents
      rw [List.append_assoc, mkdirPaths_append]
      refine List.mem_append.mpr (Or.inl ?_)
      rw [mkdirPaths_map_mkdir]
      exact List.mem_map.mpr ⟨s, hs, rfl⟩
    · unfold entryEvents
      rw [hf]
      rfl
  · intro fetch specs fs0 s e hs hf huniq hgk hmem
    unfold runPipeline at hmem
    rw [mem_applyEvents_files] at hmem
    have hslash : '/' ∉ s.name := (huniq s hs).1
    have htopp : topName (s.name ++ ("/index.md").data) = s.name := by
      rw [show ("/index.md").data = '/' :: ("index.md").data from rfl,
        topName_append hslash]
    rcases hmem with hold | hnew
    · have : s.name ++ ("/index.md").data ∈ fs0.files ∧
          topName (s.name ++ ("/index.md").data) = (".gitkeep").data := by
        simpa [clearDocsDirectory, List.mem_filter] using hold
      rw [htopp] at this
      exact absurd this.2 hgk
    · rw [writtenPaths_append, writtenPaths_processSpecs] at hnew
      rcases List.mem_append.mp hnew with hspec | htmpl
      · rw [List.mem_join] at hspec
        obtain ⟨l, hl, hpl⟩ := hspec
        obtain ⟨t, ht, rfl⟩ := List.mem_map.mp hl
        have hshape := writtenPaths_entryEvents_sub fetch t _ hpl
        have hslasht : '/' ∉ t.name := (huniq t ht).1
        have hname : t.name = s.name := by
          rcases hshape with h | h
          · have := htopp.symm.trans (by
              rw [h, show ("/index.md").data = '/' :: ("index.md").data from rfl,
                topName_append hslasht])
            exact this.symm
          · have := htopp.symm.trans (by
              rw [h, show ("/schema.md").data = '/' :: ("schema.md").data from rfl,
                topName_append hslasht])
            exact this.symm
        have hurl : t.githubUrl = s.githubUrl := (huniq t ht).2 hname
        have : writtenPaths (entryEvents fetch t) = [] := by
          unfold entryEvents
          rw [hurl, hf]
          rfl
        rw [this] at hpl
        exact absurd hpl (List.not_mem_nil _)
      · have hin : '/' ∈ s.name ++ ("/index.md").data :=
          List.mem_append.mpr (Or.inr (by decide))
        revert htmpl
        have hne1 : s.name ++ ("/index.md").data ≠ ("examples.md").data := by
          intro h
          rw [h] at hin
          exact absurd hin (by decide)
        have hne2 : s.name ++ ("/index.md").data ≠ ("getting-started.md").data := by
          intro h
          rw [h] at hin
          exact absurd hin (by decide)
        have hne3 : s.name ++ ("/index.md").data ≠ ("guides/getting-started.md").data := by
          intro h
          have h1 : topName (("guides/getting-started.md").data) = ("guides").data := by
            decide
          have h2 : s.name = ("guides").data := by
            rw [← h1, ← h, htopp]
          rw [h2] at h
          have h3 : ("guides/getting-started.md").data
              = ("guides").data ++ ("/getting-started.md").data := by decide
          rw [h3] at h
          have := List.append_cancel_left h
          exact absurd this (by decide)
        have hne4 : s.name ++ ("/index.md").data
            ≠ ("libraries/implementation.md").data := by
          intro h
          have h1 : topName (("libraries/implementation.md").data)
              = ("libraries").data := by decide
          have h2 : s.name = ("libraries").data := by
            rw [← h1, ← h, htopp]
          rw [h2] at h
          have h3 : ("libraries/implementation.md").data
              = ("libraries").data ++ ("/implementation.md").data := by decide
          rw [h3] at h
          have := List.append_cancel_left h
          exact absurd this (by decide)
        intro htmpl
        have : s.name ++ ("/index.md").data ∈ ([("examples.md").data,
            ("getting-started.md").data, ("guides/getting-started.md").data,
            ("libraries/implementation.md").data] : List Str) := by
          simpa [templateEvents, writtenPaths, List.filterMap] using htmpl
        simp only [List.mem_cons, List.not_mem_nil, or_false] at this
        rcases this with h | h | h | h
        · exact hne1 h
        · exact hne2 h
        · exact hne3 h
        · exact hne4 h

/-! ## Machinery for the Link Auditor's idempotence (claim C6) -/

/-- The head of the dropped part fails the predicate. -/
theorem dropWhile_head_not {p : Char → Bool} :
    ∀ {l t : Str} {d : Char}, l.dropWhile p = d :: t → p d = false := by
  intro l
  induction l with
  | nil => intro t d h; simp [List.dropWhile] at h
  | cons c cs ih =>
    intro t d h
    rw [List.dropWhile_cons] at h
    by_cases hc : p c = true
    · rw [if_pos hc] at h
      exact ih h
    · rw [if_neg hc] at h
      injection h with h1 h2
      subst h1
      exact Bool.eq_false_iff.mpr hc

/-- A space or a tab is neither `#` nor a newline. -/
theorem isSpTab_ne {c : Char} (h : isSpTab c = true) : c ≠ '#' ∧ c ≠ '\n' := by
  unfold isSpTab at h
  simp only [Bool.or_eq_true, decide_eq_true_eq] at h
  rcases h with h1 | h1 <;> subst h1 <;> exact ⟨by decide, by decide⟩

theorem trailWsAt_none_of_head {c : Char} (r : Str) (h : isSpTab c = false) :
    trailWsAt (c :: r) = none := by
  simp [trailWsAt, h]

theorem nlRunAt_none_of_head {c : Char} (r : Str) (h : c ≠ '\n') :
    nlRunAt (c :: r) = none := by
  match r with
  | [] => rfl
  | [c2] => rfl
  | c2 :: c3 :: s0 => simp [nlRunAt, h]

theorem nlRunAt_none_snd {c1 d : Char} (X : Str) (h : d ≠ '\n') :
    nlRunAt (c1 :: d :: X) = none := by
  match X with
  | [] => rfl
  | x :: xs => simp [nlRunAt, h]

theorem nlRunAt_none_thd {c1 c2 d : Char} (X : Str) (h : d ≠ '\n') :
    nlRunAt (c1 :: c2 :: d :: X) = none := by
  simp [nlRunAt, h]

theorem trailWsAt_some_inv : ∀ {s : Str} {o r : Str}, trailWsAt s = some (o, r) →
    o = [] ∧ ∃ c cs, s = c :: cs ∧ isSpTab c = true ∧ r = cs.dropWhile isSpTab
      ∧ (r = [] ∨ r.head? = some '\n') := by
  intro s o r h
  match s with
  | [] => simp [trailWsAt] at h
  | c :: cs =>
    simp only [trailWsAt] at h
    split at h
    · split at h
      · simp only [Option.some.injEq, Prod.mk.injEq] at h
        rename_i hsp hemp
        refine ⟨h.1.symm, c, cs, rfl, hsp, h.2.symm, Or.inl ?_⟩
        rw [← h.2]
        exact List.isEmpty_iff.mp hemp
      · split at h
        · simp only [Option.some.injEq, Prod.mk.injEq] at h
          rename_i hsp _ hhd
          exact ⟨h.1.symm, c, cs, rfl, hsp, h.2.symm, Or.inr (h.2 ▸ hhd)⟩
        · simp at h
    · simp at h

theorem trailWsAt_none_inv {c : Char} {cs : Str}
    (h : trailWsAt (c :: cs) = none) (hsp : isSpTab c = true) :
    ∃ d t, cs.dropWhile isSpTab = d :: t ∧ isSpTab d = false ∧ d ≠ '\n' := by
  simp only [trailWsAt] at h
  rw [if_pos hsp] at h
  split at h
  · simp at h
  · split at h
    · simp at h
    · rename_i hemp hhd
      cases hdw : cs.dropWhile isSpTab with
      | nil => rw [hdw] at hemp; simp at hemp
      | cons d t =>
        refine ⟨d, t, rfl, dropWhile_head_not hdw, ?_⟩
        rw [hdw] at hhd
        simp only [List.head?_cons] at hhd
        intro he
        exact hhd (by rw [he])

theorem nlRunAt_some_inv : ∀ {s o r : Str}, nlRunAt s = some (o, r) →
    o = ['\n', '\n'] ∧ ∃ s0, s = '\n' :: '\n' :: '\n' :: s0
      ∧ r = s0.dropWhile (· = '\n') := by
  intro s o r h
  match s with
  | [] => simp [nlRunAt] at h
  | [c1] => simp [nlRunAt] at h
  | [c1, c2] => simp [nlRunAt] at h
  | c1 :: c2 :: c3 :: s0 =>
    simp only [nlRunAt] at h
    split at h
    · rename_i hc
      simp only [Option.some.injEq, Prod.mk.injEq] at h
      exact ⟨h.1.symm, s0, by rw [hc.1, hc.2.1, hc.2.2], h.2.symm⟩
    · simp at h

/-- Match attempts that need a `[` fail on bracket-free text. -/
theorem cleanF_dupAt_of_no_bracket : ∀ {s : Str}, '[' ∉ s → cleanF dupAt s = true := by
  intro s
  induction s with
  | nil => intro _; rfl
  | cons c cs ih =>
    intro h
    have hc : c ≠ '[' := fun he => h (he ▸ List.mem_cons_self c cs)
    simp only [cleanF, Bool.and_eq_true]
    constructor
    · simp [dupAt, hc]
    · exact ih (fun hm => h (List.mem_cons_of_mem c hm))

theorem linkHit_false_of_no_bracket (u : Str) :
    ∀ {s : Str}, '[' ∉ s → linkHit u s = false := by
  intro s
  induction s with
  | nil => intro _; rfl
  | cons c cs ih =>
    intro h
    have hc : c ≠ '[' := fun he => h (he ▸ List.mem_cons_self c cs)
    simp only [linkHit, Bool.or_eq_false_iff, Bool.and_eq_false_iff]
    exact ⟨Or.inl (by simp [hc]), ih (fun hm => h (List.mem_cons_of_mem c hm))⟩

theorem refTryAt_none_of_no_bracket (u v : Str) {s : Str} (h : '[' ∉ s) :
    refTryAt u v s = none := by
  unfold refTryAt
  split
  · rename_i r1 heq
    exfalso
    have hmem : '[' ∈ s.dropWhile isWsChar := heq ▸ List.mem_cons_self '[' r1
    exact h ((List.dropWhile_sublist isWsChar).mem hmem)
  · rfl

theorem refHit_false_of_no_bracket (u : Str) :
    ∀ n, ∀ {s : Str}, s.length ≤ n → '[' ∉ s → refHit u s = false := by
  intro n
  induction n with
  | zero =>
    intro s hn h
    have : s = [] := List.length_eq_zero.mp (Nat.le_zero.mp hn)
    subst this
    rfl
  | succ m ih =>
    intro s hn h
    rw [refHit_eq]
    rw [refTryAt_none_of_no_bracket u [] h]
    simp only [Option.isSome_none, Bool.false_or]
    cases hdw : s.dropWhile (· ≠ '\n') with
    | nil => rfl
    | cons d r =>
      have hlt := dropWhile_cons_lt hdw
      have hsub : '[' ∉ r := by
        intro hm
        exact h (((List.sublist_cons_self d r).trans
          (hdw ▸ (List.dropWhile_sublist _ ))).mem hm)
      exact ih (by omega) hsub

theorem checkUCANLinkIssues_false_of_no_bracket {s : Str} (h : '[' ∉ s) :
    checkUCANLinkIssues s = false := by
  unfold checkUCANLinkIssues
  rw [List.any_eq_false]
  intro m _
  simp only [Bool.not_eq_true]
  rw [List.any_eq_false]
  intro v _
  simp only [Bool.not_eq_true, Bool.or_eq_false_iff]
  exact ⟨linkHit_false_of_no_bracket v h,
    refHit_false_of_no_bracket v s.length le_rfl h⟩

/-- The header-spacing pattern does NOT match a line starting with this
text: either the `#` run is too long, or the run is followed by
whitespace, another `#`, or nothing. -/
def hdrOk (r : Str) : Bool :=
  if (r.takeWhile (· = '#')).length + 1 ≤ 6 then
    match r.dropWhile (· = '#') with
    | d :: _ => isWsChar d || decide (d = '#')
    | [] => true
  else true

/-- `hcGo atLS s`: the header-spacing pass finds nothing to fix in `s`
(scanning with the same line-start state as `hpGo`). -/
def hcGo : Bool → Str → Bool
  | _, [] => true
  | atLS, c :: r =>
    if atLS ∧ c = '#' then hdrOk r && hcGo false r
    else hcGo (c = '\n') r

theorem hcGo_cons_pos {atLS : Bool} {c : Char} (hb : atLS = true) (hc : c = '#')
    (r : Str) : hcGo atLS (c :: r) = (hdrOk r && hcGo false r) := by
  simp only [hcGo]
  rw [if_pos ⟨hb, hc⟩]

theorem hcGo_cons_neg {atLS : Bool} {c : Char} (h : ¬ (atLS = true ∧ c = '#'))
    (r : Str) : hcGo atLS (c :: r) = hcGo (c = '\n') r := by
  simp only [hcGo]
  rw [if_neg h]

theorem hdrOk_all_hash {l : Str} (h : ∀ x ∈ l, x = '#') : hdrOk l = true := by
  unfold hdrOk
  have hdw : l.dropWhile (· = '#') = [] := List.dropWhile_eq_nil_iff.mpr (by
    intro x hx
    simp [h x hx])
  rw [hdw]
  split <;> rfl

theorem hdrOk_hash_cons {tw : Str} {d : Char} (X : Str) (h : ∀ x ∈ tw, x = '#')
    (hd : isWsChar d = true) (hdne : d ≠ '#') : hdrOk (tw ++ d :: X) = true := by
  unfold hdrOk
  have hdw : (tw ++ d :: X).dropWhile (· = '#') = d :: X := by
    rw [dropWhile_append_all (fun x hx => by simp [h x hx])]
    simp [List.dropWhile_cons, hdne]
  rw [hdw]
  split
  · simp [hd]
  · rfl

theorem hdrOk_long {l : Str} (h : ¬ ((l.takeWhile (· = '#')).length + 1 ≤ 6)) :
    hdrOk l = true := by
  unfold hdrOk
  rw [if_neg h]

theorem hdrOk_inv {r : Str} {d : Char} {t : Str} (h : hdrOk r = true)
    (hlen : (r.takeWhile (· = '#')).length + 1 ≤ 6)
    (hdw : r.dropWhile (· = '#') = d :: t) : isWsChar d = true ∨ d = '#' := by
  unfold hdrOk at h
  rw [if_pos hlen, hdw] at h
  simpa using h

/-- A clean string passes through the header-spacing scan unchanged. -/
theorem hcGo_eq_hpGo : ∀ (s : Str) (atLS : Bool), hcGo atLS s = true → hpGo atLS s = s := by
  intro s
  induction s with
  | nil => intro atLS _; rfl
  | cons c r ih =>
    intro atLS h
    rw [hpGo_cons]
    by_cases hc : atLS = true ∧ c = '#'
    · rw [hcGo_cons_pos hc.1 hc.2] at h
      rw [Bool.and_eq_true] at h
      obtain ⟨hcheck, hrec⟩ := h
      have hr := ih false hrec
      rw [if_pos hc]
      by_cases hlen : (r.takeWhile (· = '#')).length + 1 ≤ 6
      · rw [if_pos hlen]
        cases hdrop : r.dropWhile (· = '#') with
        | nil =>
          simp only [hdrop]
          rw [hr]
        | cons d rest2 =>
          simp only [hdrop]
          have hno : ¬ (¬ isWsChar d = true ∧ d ≠ '#') := by
            rcases hdrOk_inv hcheck hlen hdrop with h1 | h1
            · exact fun hx => hx.1 h1
            · exact fun hx => hx.2 h1
          rw [if_neg hno, hr]
      · rw [if_neg hlen, hr]
    · rw [hcGo_cons_neg hc] at h
      rw [if_neg hc, ih (c = '\n') h]

/-- Scanning over characters that are not newlines keeps the mid-line
state. -/
theorem hcGo_no_nl : ∀ (l : Str), (∀ x ∈ l, x ≠ '\n') → ∀ u,
    hcGo false (l ++ u) = hcGo false u := by
  intro l
  induction l with
  | nil => intro _ u; rfl
  | cons x t ih =>
    intro h u
    have hx : x ≠ '\n' := h x (List.mem_cons_self x t)
    rw [List.cons_append, hcGo_cons_neg (by simp)]
    rw [show (decide (x = '\n')) = false from by simp [hx]]
    exact ih (fun y hy => h y (List.mem_cons_of_mem x hy)) u

theorem hpGo_false_cons (x : Char) (t : Str) :
    hpGo false (x :: t) = x :: hpGo (x = '\n') t := by
  rw [hpGo_cons]
  rw [if_neg (by simp)]

/-- Scanning from a mid-line position copies a `#` run through. -/
theorem hpGo_false_eq : ∀ r : Str,
    hpGo false r = r.takeWhile (· = '#') ++ hpGo false (r.dropWhile (· = '#')) := by
  intro r
  induction r with
  | nil => rfl
  | cons x t ih =>
    by_cases hx : x = '#'
    · subst hx
      rw [hpGo_false_cons]
      rw [show (decide ('#' = '\n')) = false from by decide]
      simp only [List.takeWhile_cons, List.dropWhile_cons]
      norm_num
      exact ih
    · simp only [List.takeWhile_cons, List.dropWhile_cons]
      simp [hx]

/-- Cleanliness descends to any suffix that starts right after a
newline, with the line-start flag set. -/
theorem hcGo_suffix_nl : ∀ (s : Str) (b : Bool) (t : Str), hcGo b s = true →
    '\n' :: t <:+ s → hcGo true t = true := by
  intro s
  induction s with
  | nil =>
    intro b t _ hsuf
    have := List.suffix_nil.mp hsuf
    simp at this
  | cons c r ih =>
    intro b t h hsuf
    rcases List.suffix_cons_iff.mp hsuf with heq | hsuf'
    · injection heq with h1 h2
      subst h1
      subst h2
      rw [hcGo_cons_neg (by simp)] at h
      simpa using h
    · by_cases hc : b = true ∧ c = '#'
      · rw [hcGo_cons_pos hc.1 hc.2, Bool.and_eq_true] at h
        exact ih false t h.2 hsuf'
      · rw [hcGo_cons_neg hc] at h
        exact ih (c = '\n') t h hsuf'

/-- `'\n' :: (dropWhile (= newline))` is a suffix of `'\n' :: s0`. -/
theorem nl_run_suffix : ∀ s0 : Str,
    '\n' :: (s0.dropWhile (· = '\n')) <:+ ('\n' :: s0) := by
  intro s0
  induction s0 with
  | nil => exact List.suffix_refl _
  | cons x t ih =>
    by_cases hx : x = '\n'
    · subst hx
      rw [show (('\n' :: t : Str).dropWhile (· = '\n')) = t.dropWhile (· = '\n') from by
        simp [List.dropWhile_cons]]
      exact List.suffix_cons_iff.mpr (Or.inr ih)
    · rw [show ((x :: t : Str).dropWhile (· = '\n')) = x :: t from by
        simp [List.dropWhile_cons, hx]]

/-- The header-spacing pass leaves a clean output. -/
theorem hcGo_hpGo : ∀ n (s : Str), s.length ≤ n → ∀ atLS : Bool,
    hcGo atLS (hpGo atLS s) = true := by
  intro n
  induction n with
  | zero =>
    intro s hn atLS
    have : s = [] := List.length_eq_zero.mp (Nat.le_zero.mp hn)
    subst this
    rfl
  | succ m ih =>
    intro s hn atLS
    match s with
    | [] => rfl
    | c :: r =>
      simp only [List.length_cons] at hn
      have htwh : ∀ x ∈ r.takeWhile (· = '#'), x = '#' := by
        intro x hx
        simpa using List.mem_takeWhile_imp hx
      have hnlh : ∀ x ∈ r.takeWhile (· = '#'), x ≠ '\n' := by
        intro x hx
        rw [htwh x hx]
        decide
      have hr2len : ∀ d rest2, r.dropWhile (· = '#') = d :: rest2 → rest2.length ≤ m := by
        intro d rest2 hdrop
        have h1 : (r.dropWhile (· = '#')).length ≤ r.length :=
          List.Sublist.length_le (List.dropWhile_sublist _)
        rw [hdrop] at h1
        simp only [List.length_cons] at h1
        omega
      rw [hpGo_cons]
      by_cases hc : atLS = true ∧ c = '#'
      · rw [if_pos hc]
        by_cases hlen : (r.takeWhile (· = '#')).length + 1 ≤ 6
        · rw [if_pos hlen]
          cases hdrop : r.dropWhile (· = '#') with
          | nil =>
            simp only [hdrop]
            rw [hc.2, hcGo_cons_pos hc.1 rfl, Bool.and_eq_true]
            have hfr : hpGo false r = r.takeWhile (· = '#') := by
              rw [hpGo_false_eq, hdrop, hpGo_nil, List.append_nil]
            rw [hfr]
            refine ⟨hdrOk_all_hash htwh, ?_⟩
            have h0 := hcGo_no_nl (r.takeWhile (· = '#')) hnlh []
            rw [List.append_nil] at h0
            rw [h0]
            rfl
          | cons d rest2 =>
            simp only [hdrop]
            have hdH : d ≠ '#' := by
              have := dropWhile_head_not hdrop
              simpa using this
            by_cases hdok : ¬ isWsChar d = true ∧ d ≠ '#'
            · rw [if_pos hdok]
              rw [List.cons_append, hcGo_cons_pos hc.1 rfl, Bool.and_eq_true]
              constructor
              · exact hdrOk_hash_cons _ htwh (by decide) (by decide)
              · have hnl : ∀ x ∈ (r.takeWhile (· = '#')) ++ [' ', d], x ≠ '\n' := by
                  intro x hx
                  rcases List.mem_append.mp hx with h1 | h1
                  · exact hnlh x h1
                  · rcases List.mem_cons.mp h1 with h2 | h2
                    · subst h2; decide
                    · simp only [List.mem_singleton] at h2
                      subst h2
                      intro he
                      exact hdok.1 (by rw [he]; decide)
                have hsplit : (r.takeWhile (· = '#')) ++ ' ' :: d :: hpGo false rest2
                    = ((r.takeWhile (· = '#')) ++ [' ', d]) ++ hpGo false rest2 := by
                  simp
                rw [hsplit, hcGo_no_nl _ hnl]
                exact ih rest2 (hr2len d rest2 hdrop) false
            · rw [if_neg hdok]
              rw [hc.2, hcGo_cons_pos hc.1 rfl, Bool.and_eq_true]
              have hwsd : isWsChar d = true := by
                rcases not_and_or.mp hdok with h1 | h1
                · simpa using h1
                · exact absurd (by simpa using h1) hdH
              have hfr : hpGo false r
                  = r.takeWhile (· = '#') ++ d :: hpGo (d = '\n') rest2 := by
                rw [hpGo_false_eq, hdrop, hpGo_false_cons]
              rw [hfr]
              constructor
              · exact hdrOk_hash_cons _ htwh hwsd hdH
              · rw [hcGo_no_nl (r.takeWhile (· = '#')) hnlh (d :: hpGo (d = '\n') rest2)]
                rw [hcGo_cons_neg (by simp)]
                exact ih rest2 (hr2len d rest2 hdrop) (d = '\n')
        · rw [if_neg hlen]
          rw [hc.2, hcGo_cons_pos hc.1 rfl, Bool.and_eq_true]
          cases hdrop : r.dropWhile (· = '#') with
          | nil =>
            have hfr : hpGo false r = r.takeWhile (· = '#') := by
              rw [hpGo_false_eq, hdrop, hpGo_nil, List.append_nil]
            rw [hfr]
            refine ⟨hdrOk_all_hash htwh, ?_⟩
            have h0 := hcGo_no_nl (r.takeWhile (· = '#')) hnlh []
            rw [List.append_nil] at h0
            rw [h0]
            rfl
          | cons d rest2 =>
            have hdH : d ≠ '#' := by
              have := dropWhile_head_not hdrop
              simpa using this
            have hfr : hpGo false r
                = r.takeWhile (· = '#') ++ d :: hpGo (d = '\n') rest2 := by
              rw [hpGo_false_eq, hdrop, hpGo_false_cons]
            rw [hfr]
            constructor
            · refine hdrOk_long ?_
              have heq : ((r.takeWhile (· = '#') ++ d :: hpGo (d = '\n')
                  rest2).takeWhile (· = '#')) = r.takeWhile (· = '#') := by
                rw [takeWhile_append_all (fun x hx => by simp [htwh x hx])]
                simp [List.takeWhile_cons, hdH]
              rw [heq]
              exact hlen
            · rw [hcGo_no_nl (r.takeWhile (· = '#')) hnlh (d :: hpGo (d = '\n') rest2)]
              rw [hcGo_cons_neg (by simp)]
              exact ih rest2 (hr2len d rest2 hdrop) (d = '\n')
      · rw [if_neg hc]
        rw [hcGo_cons_neg hc]
        exact ih r (by omega) (c = '\n')

theorem wsA_nil : wsA [] = [] := rfl

theorem wsB_nil : wsB [] = [] := rfl

theorem wsA_cons (c : Char) (cs : Str) :
    wsA (c :: cs) = (match trailWsAt (c :: cs) with
      | some (o, r) => o ++ wsA r
      | none => c :: wsA cs) := gsub_cons _ _ c cs

theorem wsB_cons (c : Char) (cs : Str) :
    wsB (c :: cs) = (match nlRunAt (c :: cs) with
      | some (o, r) => o ++ wsB r
      | none => c :: wsB cs) := gsub_cons _ _ c cs

/-- The trailing-whitespace pass copies non-space/tab characters. -/
theorem wsA_nonsptab_prefix : ∀ (l : Str), (∀ x ∈ l, isSpTab x = false) → ∀ u,
    wsA (l ++ u) = l ++ wsA u := by
  intro l
  induction l with
  | nil => intro _ u; rfl
  | cons x t ih =>
    intro h u
    rw [List.cons_append, wsA_cons,
      trailWsAt_none_of_head _ (h x (List.mem_cons_self x t))]
    dsimp only
    rw [ih (fun y hy => h y (List.mem_cons_of_mem x hy)) u, List.cons_append]

/-- The trailing-whitespace pass copies a space/tab run that is followed
by a non-whitespace, non-newline character. -/
theorem wsA_through : ∀ (W : Str) (d : Char) (t : Str), (∀ x ∈ W, isSpTab x = true) →
    isSpTab d = false → d ≠ '\n' → wsA (W ++ (d :: t)) = W ++ (d :: wsA t) := by
  intro W
  induction W with
  | nil =>
    intro d t _ hd _
    rw [List.nil_append, List.nil_append, wsA_cons, trailWsAt_none_of_head _ hd]
  | cons x W2 ih =>
    intro d t h hd hdn
    rw [List.cons_append, wsA_cons]
    have hnone : trailWsAt (x :: (W2 ++ d :: t)) = none := by
      have hx : isSpTab x = true := h x (List.mem_cons_self _ _)
      simp only [trailWsAt]
      rw [if_pos hx]
      have hdw : (W2 ++ d :: t).dropWhile isSpTab = d :: t := by
        rw [dropWhile_append_all (fun y hy => h y (List.mem_cons_of_mem x hy))]
        simp [List.dropWhile_cons, hd]
      rw [hdw]
      rw [if_neg (by simp)]
      rw [if_neg (by simp [hdn])]
    rw [hnone]
    dsimp only
    rw [ih d t (fun y hy => h y (List.mem_cons_of_mem x hy)) hd hdn, List.cons_append]

/-- The blank-line pass copies characters other than newlines. -/
theorem wsB_no_nl_prefix : ∀ (l : Str), (∀ x ∈ l, x ≠ '\n') → ∀ u,
    wsB (l ++ u) = l ++ wsB u := by
  intro l
  induction l with
  | nil => intro _ u; rfl
  | cons x t ih =>
    intro h u
    rw [List.cons_append, wsB_cons,
      nlRunAt_none_of_head _ (h x (List.mem_cons_self x t))]
    dsimp only
    rw [ih (fun y hy => h y (List.mem_cons_of_mem x hy)) u, List.cons_append]

/-- The header pass only inserts spaces. -/
theorem mem_hpGo : ∀ n (s : Str), s.length ≤ n → ∀ (atLS : Bool) (c' : Char),
    c' ∈ hpGo atLS s → c' ∈ s ∨ c' = ' ' := by
  intro n
  induction n with
  | zero =>
    intro s hn atLS c' hm
    have : s = [] := List.length_eq_zero.mp (Nat.le_zero.mp hn)
    subst this
    simp [hpGo_nil] at hm
  | succ m ih =>
    intro s hn atLS c' hm
    match s with
    | [] => simp [hpGo_nil] at hm
    | c :: r =>
      simp only [List.length_cons] at hn
      rw [hpGo_cons] at hm
      split at hm
      · split at hm
        · split at hm
          · rename_i hcond hlen d rest2 heq
            split at hm
            · rename_i hd
              simp only [List.cons_append, List.mem_cons, List.mem_append] at hm
              have hsubtw : ∀ y, y ∈ r.takeWhile (· = '#') → y ∈ r :=
                fun y hy => (List.takeWhile_sublist _).mem hy
              have hsubd : d ∈ r := by
                have : d ∈ r.dropWhile (· = '#') := heq ▸ List.mem_cons_self d rest2
                exact (List.dropWhile_sublist _).mem this
              have hsubr2 : ∀ y, y ∈ rest2 → y ∈ r := by
                intro y hy
                have : y ∈ r.dropWhile (· = '#') := heq ▸ List.mem_cons_of_mem d hy
                exact (List.dropWhile_sublist _).mem this
              have hrlen : rest2.length ≤ m := by
                have h1 : (r.dropWhile (· = '#')).length ≤ r.length :=
                  List.Sublist.length_le (List.dropWhile_sublist _)
                rw [heq] at h1
                simp only [List.length_cons] at h1
                omega
              rcases hm with h1 | h1 | h1 | h1 | h1
              · rename_i hcond2
                exact Or.inl (List.mem_cons.mpr (Or.inl (h1.trans hcond2.2.symm)))
              · exact Or.inl (List.mem_cons.mpr (Or.inr (hsubtw c' h1)))
              · exact Or.inr h1
              · exact Or.inl (List.mem_cons.mpr (Or.inr (h1 ▸ hsubd)))
              · rcases ih rest2 hrlen false c' h1 with h2 | h2
                · exact Or.inl (List.mem_cons.mpr (Or.inr (hsubr2 c' h2)))
                · exact Or.inr h2
            · simp only [List.mem_cons] at hm
              rcases hm with h1 | h1
              · exact Or.inl (List.mem_cons.mpr (Or.inl h1))
              · rcases ih r (by omega) false c' h1 with h2 | h2
                · exact Or.inl (List.mem_cons.mpr (Or.inr h2))
                · exact Or.inr h2
          · simp only [List.mem_cons] at hm
            rcases hm with h1 | h1
            · exact Or.inl (List.mem_cons.mpr (Or.inl h1))
            · rcases ih r (by omega) false c' h1 with h2 | h2
              · exact Or.inl (List.mem_cons.mpr (Or.inr h2))
              · exact Or.inr h2
        · simp only [List.mem_cons] at hm
          rcases hm with h1 | h1
          · exact Or.inl (List.mem_cons.mpr (Or.inl h1))
          · rcases ih r (by omega) false c' h1 with h2 | h2
            · exact Or.inl (List.mem_cons.mpr (Or.inr h2))
            · exact Or.inr h2
      · simp only [List.mem_cons] at hm
        rcases hm with h1 | h1
        · exact Or.inl (List.mem_cons.mpr (Or.inl h1))
        · rcases ih r (by omega) (c = '\n') c' h1 with h2 | h2
          · exact Or.inl (List.mem_cons.mpr (Or.inr h2))
          · exact Or.inr h2

/-- The trailing-whitespace pass only deletes characters. -/
theorem mem_wsA : ∀ n (s : Str), s.length ≤ n → ∀ c', c' ∈ wsA s → c' ∈ s := by
  intro n
  induction n with
  | zero =>
    intro s hn c' hm
    have : s = [] := List.length_eq_zero.mp (Nat.le_zero.mp hn)
    subst this
    simp [wsA_nil] at hm
  | succ m ih =>
    intro s hn c' hm
    match s with
    | [] => simp [wsA_nil] at hm
    | c :: cs =>
      simp only [List.length_cons] at hn
      rw [wsA_cons] at hm
      cases htry : trailWsAt (c :: cs) with
      | some p =>
        rw [htry] at hm
        obtain ⟨ho, c2, cs2, heq, _, hr, _⟩ := trailWsAt_some_inv htry
        injection heq with he1 he2
        subst he1
        subst he2
        dsimp only at hm
        rw [ho] at hm
        simp only [List.nil_append] at hm
        have hrlen : p.2.length ≤ m := by
          have hsub : List.Sublist p.2 cs := by
            rw [hr]
            exact List.dropWhile_sublist _
          have := List.Sublist.length_le hsub
          omega
        have := ih p.2 hrlen c' hm
        rw [hr] at this
        exact List.mem_cons_of_mem c ((List.dropWhile_sublist _).mem this)
      | none =>
        rw [htry] at hm
        dsimp only at hm
        rcases List.mem_cons.mp hm with h1 | h1
        · exact h1 ▸ List.mem_cons_self c cs
        · exact List.mem_cons_of_mem c (ih cs (by omega) c' h1)

/-- The blank-line pass deletes characters or writes newlines. -/
theorem mem_wsB : ∀ n (s : Str), s.length ≤ n → ∀ c', c' ∈ wsB s →
    c' ∈ s ∨ c' = '\n' := by
  intro n
  induction n with
  | zero =>
    intro s hn c' hm
    have : s = [] := List.length_eq_zero.mp (Nat.le_zero.mp hn)
    subst this
    simp [wsB_nil] at hm
  | succ m ih =>
    intro s hn c' hm
    match s with
    | [] => simp [wsB_nil] at hm
    | c :: cs =>
      simp only [List.length_cons] at hn
      rw [wsB_cons] at hm
      cases htry : nlRunAt (c :: cs) with
      | some p =>
        rw [htry] at hm
        obtain ⟨ho, s0, heq, hr⟩ := nlRunAt_some_inv htry
        dsimp only at hm
        rw [ho] at hm
        simp only [List.cons_append, List.nil_append, List.mem_cons] at hm
        rcases hm with h1 | h1 | h1
        · exact Or.inr h1
        · exact Or.inr h1
        · have hs0len : s0.length + 3 = (c :: cs).length := by
            rw [heq]
            simp
          have hrlen : p.2.length ≤ m := by
            have hsub : List.Sublist p.2 s0 := by
              rw [hr]
              exact List.dropWhile_sublist _
            have h2 := List.Sublist.length_le hsub
            simp only [List.length_cons] at hs0len
            omega
          rcases ih p.2 hrlen c' h1 with h2 | h2
          · refine Or.inl ?_
            rw [heq]
            have : c' ∈ s0 := by
              rw [hr] at h2
              exact (List.dropWhile_sublist _).mem h2
            simp [this]
          · exact Or.inr h2
      | none =>
        rw [htry] at hm
        dsimp only at hm
        rcases List.mem_cons.mp hm with h1 | h1
        · exact Or.inl (h1 ▸ List.mem_cons_self c cs)
        · rcases ih cs (by omega) c' h1 with h2 | h2
          · exact Or.inl (List.mem_cons_of_mem c h2)
          · exact Or.inr h2

/-- Witness for C10: after a run where `alpha`'s primary fetch fails, the
`alpha` directory exists but `alpha/index.md` does not. -/
theorem C10_mkdir_before_fetch_witness :
    ("alpha").data ∈ (runPipeline fetchFailA [specA, specB] ⟨[], []⟩).dirs ∧
    (("alpha").data ++ ("/index.md").data)
      ∉ (runPipeline fetchFailA [specA, specB] ⟨[], []⟩).files :=
  ⟨(C10_mkdir_before_fetch.2.1 fetchFailA [specA, specB] ⟨[], []⟩ specA (("down").data)
      (by decide) (by rfl)).1,
   C10_mkdir_before_fetch.2.2 fetchFailA [specA, specB] ⟨[], []⟩ specA (("down").data)
      (by decide) (by rfl) (by decide) (by decide)⟩

/-- The trailing-whitespace pass keeps the head character or replaces the
leading run by nothing or by a newline-headed tail. -/
theorem wsA_head_cases (d : Char) (t : Str) :
    wsA (d :: t) = [] ∨ (∃ t2, wsA (d :: t) = d :: t2) ∨
      (∃ t2, wsA (d :: t) = '\n' :: t2) := by
  rw [wsA_cons]
  cases htry : trailWsAt (d :: t) with
  | none =>
    dsimp only
    exact Or.inr (Or.inl ⟨wsA t, rfl⟩)
  | some p =>
    dsimp only
    obtain ⟨ho, c2, cs2, heq, hsp, hr, hcase⟩ := trailWsAt_some_inv htry
    injection heq with he1 he2
    subst he1
    subst he2
    rw [ho, List.nil_append]
    rcases hcase with h1 | h1
    · rw [h1, wsA_nil]
      exact Or.inl rfl
    · cases hp : p.2 with
      | nil => rw [hp] at h1; simp at h1
      | cons e u =>
        rw [hp] at h1
        simp only [List.head?_cons, Option.some.injEq] at h1
        subst h1
        rw [wsA_cons, trailWsAt_none_of_head u (by decide)]
        exact Or.inr (Or.inr ⟨wsA u, rfl⟩)

/-- The blank-line pass keeps the head character or emits a newline. -/
theorem wsB_head_cases (d : Char) (t : Str) :
    (∃ t2, wsB (d :: t) = d :: t2) ∨ (∃ t2, wsB (d :: t) = '\n' :: t2) := by
  rw [wsB_cons]
  cases htry : nlRunAt (d :: t) with
  | none =>
    dsimp only
    exact Or.inl ⟨wsB t, rfl⟩
  | some p =>
    dsimp only
    obtain ⟨ho, s0, heq, hr⟩ := nlRunAt_some_inv htry
    rw [ho]
    exact Or.inr ⟨'\n' :: wsB p.2, rfl⟩

/-- Strings that the header pattern cannot match stay unmatchable after
the trailing-whitespace cleanup. -/
theorem hdrOk_wsA (r : Str) (h : hdrOk r = true) : hdrOk (wsA r) = true := by
  have htw : ∀ x ∈ r.takeWhile (· = '#'), x = '#' := by
    intro x hx
    simpa using List.mem_takeWhile_imp hx
  have hsp : ∀ x ∈ r.takeWhile (· = '#'), isSpTab x = false := by
    intro x hx
    rw [htw x hx]
    decide
  cases hdw : r.dropWhile (· = '#') with
  | nil =>
    have hw : wsA r = r.takeWhile (· = '#') := by
      calc wsA r = wsA (r.takeWhile (· = '#') ++ r.dropWhile (· = '#')) := by
            rw [List.takeWhile_append_dropWhile]
        _ = wsA (r.takeWhile (· = '#') ++ []) := by rw [hdw]
        _ = r.takeWhile (· = '#') ++ wsA [] := wsA_nonsptab_prefix _ hsp []
        _ = r.takeWhile (· = '#') := by rw [wsA_nil, List.append_nil]
    rw [hw]
    exact hdrOk_all_hash htw
  | cons d t =>
    have hdH : d ≠ '#' := by simpa using dropWhile_head_not hdw
    have hw : wsA r = r.takeWhile (· = '#') ++ wsA (d :: t) := by
      calc wsA r = wsA (r.takeWhile (· = '#') ++ r.dropWhile (· = '#')) := by
            rw [List.takeWhile_append_dropWhile]
        _ = wsA (r.takeWhile (· = '#') ++ (d :: t)) := by rw [hdw]
        _ = r.takeWhile (· = '#') ++ wsA (d :: t) := wsA_nonsptab_prefix _ hsp _
    rcases wsA_head_cases d t with hcase | ⟨t2, hcase⟩ | ⟨t2, hcase⟩
    · rw [hw, hcase, List.append_nil]
      exact hdrOk_all_hash htw
    · by_cases hlen : (r.takeWhile (· = '#')).length + 1 ≤ 6
      · have hwd : isWsChar d = true := (hdrOk_inv h hlen hdw).resolve_right hdH
        rw [hw, hcase]
        exact hdrOk_hash_cons t2 htw hwd hdH
      · rw [hw, hcase]
        refine hdrOk_long ?_
        rw [takeWhile_append_all (fun x hx => by simp [htw x hx])]
        rw [show ((d :: t2 : Str).takeWhile (· = '#')) = [] from by
          simp [List.takeWhile_cons, hdH]]
        simpa using hlen
    · by_cases hlen : (r.takeWhile (· = '#')).length + 1 ≤ 6
      · rw [hw, hcase]
        exact hdrOk_hash_cons t2 htw (by decide) (by decide)
      · rw [hw, hcase]
        refine hdrOk_long ?_
        rw [takeWhile_append_all (fun x hx => by simp [htw x hx])]
        rw [show (('\n' :: t2 : Str).takeWhile (· = '#')) = [] from by
          simp [List.takeWhile_cons]]
        simpa using hlen

/-- Strings that the header pattern cannot match stay unmatchable after
the blank-line cleanup. -/
theorem hdrOk_wsB (r : Str) (h : hdrOk r = true) : hdrOk (wsB r) = true := by
  have htw : ∀ x ∈ r.takeWhile (· = '#'), x = '#' := by
    intro x hx
    simpa using List.mem_takeWhile_imp hx
  have hnl : ∀ x ∈ r.takeWhile (· = '#'), x ≠ '\n' := by
    intro x hx
    rw [htw x hx]
    decide
  cases hdw : r.dropWhile (· = '#') with
  | nil =>
    have hw : wsB r = r.takeWhile (· = '#') := by
      calc wsB r = wsB (r.takeWhile (· = '#') ++ r.dropWhile (· = '#')) := by
            rw [List.takeWhile_append_dropWhile]
        _ = wsB (r.takeWhile (· = '#') ++ []) := by rw [hdw]
        _ = r.takeWhile (· = '#') ++ wsB [] := wsB_no_nl_prefix _ hnl []
        _ = r.takeWhile (· = '#') := by rw [wsB_nil, List.append_nil]
    rw [hw]
    exact hdrOk_all_hash htw
  | cons d t =>
    have hdH : d ≠ '#' := by simpa using dropWhile_head_not hdw
    have hw : wsB r = r.takeWhile (· = '#') ++ wsB (d :: t) := by
      calc wsB r = wsB (r.takeWhile (· = '#') ++ r.dropWhile (· = '#')) := by
            rw [List.takeWhile_append_dropWhile]
        _ = wsB (r.takeWhile (· = '#') ++ (d :: t)) := by rw [hdw]
        _ = r.takeWhile (· = '#') ++ wsB (d :: t) := wsB_no_nl_prefix _ hnl _
    rcases wsB_head_cases d t with ⟨t2, hcase⟩ | ⟨t2, hcase⟩
    · by_cases hlen : (r.takeWhile (· = '#')).length + 1 ≤ 6
      · have hwd : isWsChar d = true := (hdrOk_inv h hlen hdw).resolve_right hdH
        rw [hw, hcase]
        exact hdrOk_hash_cons t2 htw hwd hdH
      · rw [hw, hcase]
        refine hdrOk_long ?_
        rw [takeWhile_append_all (fun x hx => by simp [htw x hx])]
        rw [show ((d :: t2 : Str).takeWhile (· = '#')) = [] from by
          simp [List.takeWhile_cons, hdH]]
        simpa using hlen
    · by_cases hlen : (r.takeWhile (· = '#')).length + 1 ≤ 6
      · rw [hw, hcase]
        exact hdrOk_hash_cons t2 htw (by decide) (by decide)
      · rw [hw, hcase]
        refine hdrOk_long ?_
        rw [takeWhile_append_all (fun x hx => by simp [htw x hx])]
        rw [show (('\n' :: t2 : Str).takeWhile (· = '#')) = [] from by
          simp [List.takeWhile_cons]]
        simpa using hlen

/-- The trailing-whitespace cleanup keeps header-clean content
header-clean. -/
theorem hcGo_wsA : ∀ n (s : Str), s.length ≤ n → ∀ b, hcGo b s = true →
    hcGo b (wsA s) = true := by
  intro n
  induction n with
  | zero =>
    intro s hn b h
    have : s = [] := List.length_eq_zero.mp (Nat.le_zero.mp hn)
    subst this
    rw [wsA_nil]
    exact h
  | succ m ih =>
    intro s hn b h
    match s with
    | [] =>
      rw [wsA_nil]
      exact h
    | c :: cs =>
      simp only [List.length_cons] at hn
      rw [wsA_cons]
      cases htry : trailWsAt (c :: cs) with
      | none =>
        dsimp only
        by_cases hc : b = true ∧ c = '#'
        · rw [hcGo_cons_pos hc.1 hc.2]
          rw [hcGo_cons_pos hc.1 hc.2] at h
          rw [Bool.and_eq_true] at h ⊢
          exact ⟨hdrOk_wsA cs h.1, ih cs (by omega) false h.2⟩
        · rw [hcGo_cons_neg hc]
          rw [hcGo_cons_neg hc] at h
          exact ih cs (by omega) (c = '\n') h
      | some p =>
        dsimp only
        obtain ⟨ho, c2, cs2, heq, hsp, hr, hcase⟩ := trailWsAt_some_inv htry
        injection heq with he1 he2
        subst he1
        subst he2
        rw [ho, List.nil_append]
        have hcne := isSpTab_ne hsp
        rw [hcGo_cons_neg (fun hx => hcne.1 hx.2)] at h
        rw [show (decide (c = '\n')) = false from by simp [hcne.2]] at h
        rcases hcase with h1 | h1
        · rw [h1, wsA_nil]
          rfl
        · cases hp : p.2 with
          | nil => rw [hp] at h1; simp at h1
          | cons e u =>
            rw [hp] at h1
            simp only [List.head?_cons, Option.some.injEq] at h1
            subst h1
            rw [wsA_cons, trailWsAt_none_of_head u (by decide)]
            dsimp only
            rw [hcGo_cons_neg (by simp)]
            rw [show (decide ('\n' = '\n')) = true from by simp]
            have hsufr : '\n' :: u <:+ cs := by
              rw [← hp, hr]
              exact List.dropWhile_suffix _
            have hu : hcGo true u = true := hcGo_suffix_nl cs false u h hsufr
            have hulen : u.length ≤ m := by
              have h2 : List.Sublist p.2 cs := by
                rw [hr]
                exact List.dropWhile_sublist _
              have h3 := List.Sublist.length_le h2
              rw [hp] at h3
              simp only [List.length_cons] at h3
              omega
            exact ih u hulen true hu

/-- The blank-line cleanup keeps header-clean content header-clean. -/
theorem hcGo_wsB : ∀ n (s : Str), s.length ≤ n → ∀ b, hcGo b s = true →
    hcGo b (wsB s) = true := by
  intro n
  induction n with
  | zero =>
    intro s hn b h
    have : s = [] := List.length_eq_zero.mp (Nat.le_zero.mp hn)
    subst this
    rw [wsB_nil]
    exact h
  | succ m ih =>
    intro s hn b h
    match s with
    | [] =>
      rw [wsB_nil]
      exact h
    | c :: cs =>
      simp only [List.length_cons] at hn
      rw [wsB_cons]
      cases htry : nlRunAt (c :: cs) with
      | none =>
        dsimp only
        by_cases hc : b = true ∧ c = '#'
        · rw [hcGo_cons_pos hc.1 hc.2]
          rw [hcGo_cons_pos hc.1 hc.2] at h
          rw [Bool.and_eq_true] at h ⊢
          exact ⟨hdrOk_wsB cs h.1, ih cs (by omega) false h.2⟩
        · rw [hcGo_cons_neg hc]
          rw [hcGo_cons_neg hc] at h
          exact ih cs (by omega) (c = '\n') h
      | some p =>
        dsimp only
        obtain ⟨ho, s0, heq, hr⟩ := nlRunAt_some_inv htry
        injection heq with he1 he2
        subst he1
        subst he2
        rw [ho]
        simp only [List.cons_append, List.nil_append]
        rw [hcGo_cons_neg (by simp)]
        rw [show (decide ('\n' = '\n')) = true from by simp]
        rw [hcGo_cons_neg (by simp)]
        rw [show (decide ('\n' = '\n')) = true from by simp]
        rw [hcGo_cons_neg (by simp)] at h
        rw [show (decide ('\n' = '\n')) = true from by simp] at h
        rw [hcGo_cons_neg (by simp)] at h
        rw [show (decide ('\n' = '\n')) = true from by simp] at h
        have hsufr : '\n' :: p.2 <:+ '\n' :: s0 := by
          rw [hr]
          exact nl_run_suffix s0
        have hp2 : hcGo true p.2 = true := hcGo_suffix_nl ('\n' :: s0) true p.2 h hsufr
        have hlen2 : p.2.length ≤ m := by
          have h2 : List.Sublist p.2 s0 := by
            rw [hr]
            exact List.dropWhile_sublist _
          have h3 := List.Sublist.length_le h2
          simp only [List.length_cons] at hn
          omega
        exact ih p.2 hlen2 true hp2

/-- Positions where the trailing-whitespace pattern fails keep failing
after the tail is cleaned by the trailing-whitespace pass. -/
theorem trailWsAt_none_wsA_head {c : Char} {cs : Str}
    (htry : trailWsAt (c :: cs) = none) : trailWsAt (c :: wsA cs) = none := by
  by_cases hc : isSpTab c = true
  · obtain ⟨d, t, hdw, hd, hdn⟩ := trailWsAt_none_inv htry hc
    have hWall : ∀ x ∈ cs.takeWhile isSpTab, isSpTab x = true :=
      fun x hx => List.mem_takeWhile_imp hx
    have hwsa : wsA cs = cs.takeWhile isSpTab ++ d :: wsA t := by
      calc wsA cs = wsA (cs.takeWhile isSpTab ++ cs.dropWhile isSpTab) := by
            rw [List.takeWhile_append_dropWhile]
        _ = wsA (cs.takeWhile isSpTab ++ (d :: t)) := by rw [hdw]
        _ = cs.takeWhile isSpTab ++ (d :: wsA t) := wsA_through _ d t hWall hd hdn
    rw [hwsa]
    simp only [trailWsAt]
    rw [if_pos hc]
    have hdw2 : (cs.takeWhile isSpTab ++ d :: wsA t).dropWhile isSpTab
        = d :: wsA t := by
      rw [dropWhile_append_all hWall]
      simp [List.dropWhile_cons, hd]
    rw [hdw2]
    rw [if_neg (by simp)]
    rw [if_neg (by simp [hdn])]
  · exact trailWsAt_none_of_head _ (by simpa using hc)

/-- Positions where the trailing-whitespace pattern fails keep failing
after the tail is cleaned by the blank-line pass. -/
theorem trailWsAt_none_wsB_head {c : Char} {cs : Str}
    (htry : trailWsAt (c :: cs) = none) : trailWsAt (c :: wsB cs) = none := by
  by_cases hc : isSpTab c = true
  · obtain ⟨d, t, hdw, hd, hdn⟩ := trailWsAt_none_inv htry hc
    have hWall : ∀ x ∈ cs.takeWhile isSpTab, isSpTab x = true :=
      fun x hx => List.mem_takeWhile_imp hx
    have hWnl : ∀ x ∈ cs.takeWhile isSpTab, x ≠ '\n' :=
      fun x hx => (isSpTab_ne (hWall x hx)).2
    have hwsb : wsB cs = cs.takeWhile isSpTab ++ d :: wsB t := by
      calc wsB cs = wsB (cs.takeWhile isSpTab ++ cs.dropWhile isSpTab) := by
            rw [List.takeWhile_append_dropWhile]
        _ = wsB (cs.takeWhile isSpTab ++ (d :: t)) := by rw [hdw]
        _ = cs.takeWhile isSpTab ++ wsB (d :: t) := wsB_no_nl_prefix _ hWnl _
        _ = cs.takeWhile isSpTab ++ d :: wsB t := by
            rw [wsB_cons, nlRunAt_none_of_head t hdn]
    rw [hwsb]
    simp only [trailWsAt]
    rw [if_pos hc]
    have hdw2 : (cs.takeWhile isSpTab ++ d :: wsB t).dropWhile isSpTab
        = d :: wsB t := by
      rw [dropWhile_append_all hWall]
      simp [List.dropWhile_cons, hd]
    rw [hdw2]
    rw [if_neg (by simp)]
    rw [if_neg (by simp [hdn])]
  · exact trailWsAt_none_of_head _ (by simpa using hc)

/-- The output of the trailing-whitespace pass has no trailing-whitespace
match left. -/
theorem cleanF_trailWsAt_wsA : ∀ n (s : Str), s.length ≤ n →
    cleanF trailWsAt (wsA s) = true := by
  intro n
  induction n with
  | zero =>
    intro s hn
    have : s = [] := List.length_eq_zero.mp (Nat.le_zero.mp hn)
    subst this
    rw [wsA_nil]
    rfl
  | succ m ih =>
    intro s hn
    match s with
    | [] =>
      rw [wsA_nil]
      rfl
    | c :: cs =>
      simp only [List.length_cons] at hn
      rw [wsA_cons]
      cases htry : trailWsAt (c :: cs) with
      | none =>
        dsimp only
        simp only [cleanF, Bool.and_eq_true]
        refine ⟨?_, ih cs (by omega)⟩
        rw [trailWsAt_none_wsA_head htry]
        rfl
      | some p =>
        dsimp only
        obtain ⟨ho, c2, cs2, heq, hsp, hr, hcase⟩ := trailWsAt_some_inv htry
        injection heq with he1 he2
        subst he1
        subst he2
        rw [ho, List.nil_append]
        have hlen : p.2.length ≤ m := by
          have h2 : List.Sublist p.2 cs := by
            rw [hr]
            exact List.dropWhile_sublist _
          have := List.Sublist.length_le h2
          omega
        exact ih p.2 hlen

/-- The blank-line pass preserves the absence of trailing-whitespace
matches. -/
theorem cleanF_trailWsAt_wsB : ∀ n (s : Str), s.length ≤ n →
    cleanF trailWsAt s = true → cleanF trailWsAt (wsB s) = true := by
  intro n
  induction n with
  | zero =>
    intro s hn h
    have : s = [] := List.length_eq_zero.mp (Nat.le_zero.mp hn)
    subst this
    rw [wsB_nil]
    exact h
  | succ m ih =>
    intro s hn h
    match s with
    | [] =>
      rw [wsB_nil]
      exact h
    | c :: cs =>
      simp only [List.length_cons] at hn
      simp only [cleanF, Bool.and_eq_true] at h
      obtain ⟨h1, h2⟩ := h
      rw [Option.isNone_iff_eq_none] at h1
      rw [wsB_cons]
      cases htry : nlRunAt (c :: cs) with
      | none =>
        dsimp only
        simp only [cleanF, Bool.and_eq_true]
        refine ⟨?_, ih cs (by omega) h2⟩
        rw [trailWsAt_none_wsB_head h1]
        rfl
      | some p =>
        dsimp only
        obtain ⟨ho, s0, heq, hr⟩ := nlRunAt_some_inv htry
        injection heq with he1 he2
        subst he1
        subst he2
        rw [ho]
        simp only [List.cons_append, List.nil_append]
        simp only [cleanF, Bool.and_eq_true]
        have hsuf : p.2 <:+ '\n' :: s0 := by
          rw [hr]
          exact (List.dropWhile_suffix _).trans (List.suffix_cons '\n' s0)
        have hcl : cleanF trailWsAt p.2 = true :=
      cleanF_suffix h2 (hsuf.trans (List.suffix_cons '\n' ('\n' :: s0)))
        have hlen : p.2.length ≤ m := by
          have hsub : List.Sublist p.2 s0 := by
            rw [hr]
            exact List.dropWhile_sublist _
          have := List.Sublist.length_le hsub
          simp only [List.length_cons] at hn
          omega
        refine ⟨?_, ?_, ih p.2 hlen hcl⟩
        · rw [trailWsAt_none_of_head _ (by decide)]
          rfl
        · rw [trailWsAt_none_of_head _ (by decide)]
          rfl

/-- The output of the blank-line pass has no blank-line match left. -/
theorem cleanF_nlRunAt_wsB : ∀ n (s : Str), s.length ≤ n →
    cleanF nlRunAt (wsB s) = true := by
  intro n
  induction n with
  | zero =>
    intro s hn
    have : s = [] := List.length_eq_zero.mp (Nat.le_zero.mp hn)
    subst this
    rw [wsB_nil]
    rfl
  | succ m ih =>
    intro s hn
    match s with
    | [] =>
      rw [wsB_nil]
      rfl
    | c :: cs =>
      simp only [List.length_cons] at hn
      rw [wsB_cons]
      cases htry : nlRunAt (c :: cs) with
      | some p =>
        dsimp only
        obtain ⟨ho, s0, heq, hr⟩ := nlRunAt_some_inv htry
        injection heq with he1 he2
        subst he1
        subst he2
        rw [ho]
        simp only [List.cons_append, List.nil_append]
        have hlen : p.2.length ≤ m := by
          have hsub : List.Sublist p.2 s0 := by
            rw [hr]
            exact List.dropWhile_sublist _
          have := List.Sublist.length_le hsub
          simp only [List.length_cons] at hn
          omega
        have hihp := ih p.2 hlen
        cases hp : p.2 with
        | nil =>
          rw [wsB_nil]
          rfl
        | cons e u =>
          have he : e ≠ '\n' := by
            have h2 : s0.dropWhile (· = '\n') = e :: u := by
              rw [← hr]
              exact hp
            have := dropWhile_head_not h2
            simpa using this
          have hwsb : wsB (e :: u) = e :: wsB u := by
            rw [wsB_cons, nlRunAt_none_of_head u he]
          rw [hwsb]
          rw [hp, hwsb] at hihp
          simp only [cleanF, Bool.and_eq_true] at hihp ⊢
          refine ⟨?_, ?_, hihp.1, hihp.2⟩
          · rw [nlRunAt_none_thd (wsB u) he]
            rfl
          · rw [nlRunAt_none_snd (wsB u) he]
            rfl
      | none =>
        dsimp only
        simp only [cleanF, Bool.and_eq_true]
        refine ⟨?_, ih cs (by omega)⟩
        by_cases hcn : c = '\n'
        · subst hcn
          cases hc2 : cs with
          | nil =>
            rw [wsB_nil]
            rfl
          | cons d cs2 =>
            by_cases hd : d = '\n'
            · subst hd
              cases hc3 : cs2 with
              | nil =>
                rw [show wsB ['\n'] = ['\n'] from by decide]
                rfl
              | cons e cs3 =>
                by_cases he : e = '\n'
                · exfalso
                  subst he
                  rw [hc2, hc3] at htry
                  simp [nlRunAt] at htry
                · have hA : wsB ('\n' :: e :: cs3) = '\n' :: wsB (e :: cs3) := by
                    rw [wsB_cons, nlRunAt_none_snd cs3 he]
                  have hB : wsB (e :: cs3) = e :: wsB cs3 := by
                    rw [wsB_cons, nlRunAt_none_of_head cs3 he]
                  rw [hA, hB, nlRunAt_none_thd (wsB cs3) he]
                  rfl
            · have hB : wsB (d :: cs2) = d :: wsB cs2 := by
                rw [wsB_cons, nlRunAt_none_of_head cs2 hd]
              rw [hB, nlRunAt_none_snd (wsB cs2) hd]
              rfl
        · rw [nlRunAt_none_of_head _ hcn]
          rfl

/-- C6: the Link Auditor's fix pass is idempotent on every content that
contains no '[' character — the duplicate-link and link-standardization
steps cannot fire there, and the header-spacing, trailing-whitespace and
blank-line cleanups jointly reach a fixed point after one run.  (The
unconditional claim is refuted by the counterexample: the duplicate-link
collapse removes one adjacent duplicate per scan position, so three
identical adjacent links need two passes.) -/
theorem C6_fix_idempotent (content : Str) (h : '[' ∉ content) :
    processFileFix (processFileFix content) = processFileFix content := by
  have hdup : dupPass content = content :=
    gsub_eq_self dupAt dupAt_length content (cleanF_dupAt_of_no_bracket h)
  have hhp1 : '[' ∉ headerPass content := by
    intro hm
    rcases mem_hpGo content.length content le_rfl true '[' hm with h1 | h1
    · exact h h1
    · exact absurd h1 (by decide)
  have hchk : checkUCANLinkIssues (headerPass content) = false :=
    checkUCANLinkIssues_false_of_no_bracket hhp1
  have hfix1 : processFileFix content = wsB (wsA (headerPass content)) := by
    unfold processFileFix
    rw [hdup, hchk, if_neg Bool.false_ne_true]
  have hynb : '[' ∉ wsB (wsA (headerPass content)) := by
    intro hm
    rcases mem_wsB (wsA (headerPass content)).length _ le_rfl '[' hm with h1 | h1
    · exact hhp1 (mem_wsA (headerPass content).length _ le_rfl '[' h1)
    · exact absurd h1 (by decide)
  have hdup2 : dupPass (wsB (wsA (headerPass content)))
      = wsB (wsA (headerPass content)) :=
    gsub_eq_self dupAt dupAt_length _ (cleanF_dupAt_of_no_bracket hynb)
  have hclean : hcGo true (wsB (wsA (headerPass content))) = true :=
    hcGo_wsB _ _ le_rfl true (hcGo_wsA _ _ le_rfl true
      (hcGo_hpGo content.length content le_rfl true))
  have hhp2 : headerPass (wsB (wsA (headerPass content)))
      = wsB (wsA (headerPass content)) :=
    hcGo_eq_hpGo _ true hclean
  have hchk2 : checkUCANLinkIssues (headerPass (wsB (wsA (headerPass content))))
      = false := by
    rw [hhp2]
    exact checkUCANLinkIssues_false_of_no_bracket hynb
  have hwsA2 : wsA (wsB (wsA (headerPass content)))
      = wsB (wsA (headerPass content)) :=
    gsub_eq_self trailWsAt trailWsAt_length _
      (cleanF_trailWsAt_wsB _ _ le_rfl (cleanF_trailWsAt_wsA _ _ le_rfl))
  have hwsB2 : wsB (wsB (wsA (headerPass content)))
      = wsB (wsA (headerPass content)) :=
    gsub_eq_self nlRunAt nlRunAt_length _ (cleanF_nlRunAt_wsB _ _ le_rfl)
  rw [hfix1]
  unfold processFileFix
  rw [hdup2, hchk2, if_neg Bool.false_ne_true, hhp2, hwsA2, hwsB2]

/-- Counterexample to the unconditional C6 statement: with three adjacent
copies of the same link, the first fix run collapses only one duplicate,
so a second run still changes the content. -/
theorem C6_fix_idempotent_cex :
    processFileFix (processFileFix (("[a](x)[a](x)[a](x)").data)) ≠
      processFileFix (("[a](x)[a](x)[a](x)").data) := by decide

/-- Witness for C6 on a concrete bracket-free content exercising the
header, trailing-whitespace and blank-line fixes. -/
theorem C6_fix_idempotent_witness :
    '[' ∉ ("a\n\n\n\nb  \n##x\n").data ∧
      processFileFix (processFileFix (("a\n\n\n\nb  \n##x\n").data)) =
        processFileFix (("a\n\n\n\nb  \n##x\n").data) :=
  ⟨by decide, C6_fix_idempotent (("a\n\n\n\nb  \n##x\n").data) (by decide)⟩

end UCANDocs
